import Mathlib

/-!
# Limit order book: embedding of `lob.cpp`

The engine of `lob.cpp` is translated function by function.

* `double` prices are modelled by rationals: every finite `double` is a rational
  and the engine only compares prices and uses them as map keys.  NaN and the
  infinities are outside the model; `DBL_MAX` is the exact value of
  `numeric_limits<double>::max()`.
* `int` quantities and `long long` ids and timestamps are mathematical integers
  (no arithmetic of the engine leaves the range of its operands on a well-formed
  book: a traded quantity lies between zero and both operands).
* `std::map<double, vector<Order>, comparator>` is a list of `(price, vector)`
  pairs kept in comparator order; `std::vector<Order>` is a list.
* `vector<Order>::iterator` stored in `order_index` is modelled by the offset from
  `begin()` it had when it was stored.  Erasing through an offset that is not
  inside the vector, and `front()` of an empty vector, are undefined behaviour:
  the operation returns `none`.
* The `while` loops of `match_buy` and `match_sell` are iterated with fuel.
* Printing is modelled by the value printed; the `double` arithmetic of `print_trades`
  is exact rational arithmetic.
-/

namespace LOB

/-- The `enum class Side`. -/
inductive Side where
  | BUY
  | SELL
deriving DecidableEq, Repr

/-- The `struct Order`. -/
structure Order where
  id : Int
  side : Side
  price : ℚ
  quantity : Int
  timestamp : Int
deriving DecidableEq, Repr

/-- The `struct Trade`. -/
structure Trade where
  buy_id : Int
  sell_id : Int
  price : ℚ
  quantity : Int
deriving DecidableEq, Repr

/-- Exact value of `numeric_limits<double>::max()`, that is `2^1024 - 2^971`. -/
def DBL_MAX : ℚ := 179769313486231570814527423731704356798070567525844996598917476803157260780028538760589558632766878171540458953514382464234321326889464182768467546703537516986049910576551282076245490090389328944075868508455133942304583236903222948165808559332123348274797826204144723168738177180919299881250404026184124858368

/-- The comparator a `BookSide` is constructed with: `a > b` for bids (highest first),
`a < b` for asks (lowest first). -/
def comparator (is_bid : Bool) (a b : ℚ) : Bool :=
  if is_bid then decide (a > b) else decide (a < b)

/-- The content of a `std::map<double, vector<Order>, ...>`, in iteration order. -/
abbrev Levels := List (ℚ × List Order)

/-- The `levels.count(price)` of the map, as a boolean. -/
def levels_count (price : ℚ) : Levels → Bool
  | [] => false
  | (p, _) :: rest => if p = price then true else levels_count price rest

/-- The vector that `levels[price]` refers to: the stored one, or the empty vector that
`operator[]` creates when the key is absent. -/
def levels_at (price : ℚ) : Levels → List Order
  | [] => []
  | (p, v) :: rest => if p = price then v else levels_at price rest

/-- The map after `levels[price]` has been taken and the referenced vector changed by `f`:
an absent key is inserted at its place in comparator order with an empty vector first. -/
def levels_modify (is_bid : Bool) (price : ℚ) (f : List Order → List Order) : Levels → Levels
  | [] => [(price, f [])]
  | (p, v) :: rest =>
    if p = price then (p, f v) :: rest
    else if comparator is_bid price p then (price, f []) :: (p, v) :: rest
    else (p, v) :: levels_modify is_bid price f rest

/-- The `levels.erase(price)` of the map. -/
def levels_erase (price : ℚ) : Levels → Levels
  | [] => []
  | (p, v) :: rest => if p = price then rest else (p, v) :: levels_erase price rest

/-- The `class BookSide`: the map together with the comparator it was constructed with. -/
structure BookSide where
  is_bid : Bool
  levels : Levels

/-- Member `BookSide::add_order`: `levels[o.price].push_back(o)`. -/
def BookSide.add_order (b : BookSide) (o : Order) : BookSide :=
  { b with levels := levels_modify b.is_bid o.price (fun v => v ++ [o]) b.levels }

/-- The `class LimitOrderBook`.  An entry of `order_index` is the price together with the
offset of the stored iterator in its vector. -/
structure LimitOrderBook where
  bids : BookSide
  asks : BookSide
  trades : List Trade
  order_index : Int → Option (ℚ × Nat)
  ts_counter : Int

/-- The `order_index.erase(id)`. -/
def index_erase (idx : Int → Option (ℚ × Nat)) (id : Int) : Int → Option (ℚ × Nat) :=
  fun k => if k = id then none else idx k

/-- The `order_index[id] = { price, it }`. -/
def index_assign (idx : Int → Option (ℚ × Nat)) (id : Int) (price : ℚ) (it : Nat) :
    Int → Option (ℚ × Nat) :=
  fun k => if k = id then some (price, it) else idx k

/-- The constructor `LimitOrderBook() : bids(true), asks(false)`. -/
def LimitOrderBook.empty : LimitOrderBook :=
  { bids := ⟨true, []⟩, asks := ⟨false, []⟩, trades := [], order_index := fun _ => none,
    ts_counter := 0 }

/-- Outcome of one evaluation of a matching loop: the loop is left (guard false or `break`),
or its body ran once, or the body called `front()` on an empty vector. -/
inductive MatchStep where
  | exit
  | next (lob : LimitOrderBook) (incoming : Order)
  | undefined

/-- One evaluation of the `while` of `match_buy`: guard, `break` test and body. -/
def match_buy_iter (lob : LimitOrderBook) (incoming : Order) : MatchStep :=
  if incoming.quantity > 0 then
    match lob.asks.levels with
    | [] => .exit
    | (best_ask_price, ask_level) :: rest =>
      if best_ask_price > incoming.price then .exit
      else
        match ask_level with
        | [] => .undefined
        | resting :: tail =>
          let traded := min incoming.quantity resting.quantity
          let trades := lob.trades ++ [⟨incoming.id, resting.id, best_ask_price, traded⟩]
          let incoming' := { incoming with quantity := incoming.quantity - traded }
          let resting' := { resting with quantity := resting.quantity - traded }
          if resting'.quantity = 0 then
            .next { lob with
                    trades := trades
                    order_index := index_erase lob.order_index resting.id
                    asks := { lob.asks with
                              levels := if tail = [] then rest
                                        else (best_ask_price, tail) :: rest } }
                  incoming'
          else
            .next { lob with
                    trades := trades
                    asks := { lob.asks with
                              levels := (best_ask_price, resting' :: tail) :: rest } }
                  incoming'
  else .exit

/-- One evaluation of the `while` of `match_sell`: guard, `break` test and body. -/
def match_sell_iter (lob : LimitOrderBook) (incoming : Order) : MatchStep :=
  if incoming.quantity > 0 then
    match lob.bids.levels with
    | [] => .exit
    | (best_bid_price, bid_level) :: rest =>
      if best_bid_price < incoming.price then .exit
      else
        match bid_level with
        | [] => .undefined
        | resting :: tail =>
          let traded := min incoming.quantity resting.quantity
          let trades := lob.trades ++ [⟨resting.id, incoming.id, best_bid_price, traded⟩]
          let incoming' := { incoming with quantity := incoming.quantity - traded }
          let resting' := { resting with quantity := resting.quantity - traded }
          if resting'.quantity = 0 then
            .next { lob with
                    trades := trades
                    order_index := index_erase lob.order_index resting.id
                    bids := { lob.bids with
                              levels := if tail = [] then rest
                                        else (best_bid_price, tail) :: rest } }
                  incoming'
          else
            .next { lob with
                    trades := trades
                    bids := { lob.bids with
                              levels := (best_bid_price, resting' :: tail) :: rest } }
                  incoming'
  else .exit

/-- The `while` loop of `match_buy` run for at most `fuel` evaluations of its guard. -/
def match_buy_loop : Nat → LimitOrderBook → Order → Option (LimitOrderBook × Order)
  | 0, _, _ => none
  | fuel + 1, lob, incoming =>
    match match_buy_iter lob incoming with
    | .exit => some (lob, incoming)
    | .undefined => none
    | .next lob' incoming' => match_buy_loop fuel lob' incoming'

/-- The `while` loop of `match_sell` run for at most `fuel` evaluations of its guard. -/
def match_sell_loop : Nat → LimitOrderBook → Order → Option (LimitOrderBook × Order)
  | 0, _, _ => none
  | fuel + 1, lob, incoming =>
    match match_sell_iter lob incoming with
    | .exit => some (lob, incoming)
    | .undefined => none
    | .next lob' incoming' => match_sell_loop fuel lob' incoming'

/-- Number of orders stored in a map of levels. -/
def levels_size (l : Levels) : Nat := (l.map (fun pv => pv.2.length)).sum

/-- Member `LimitOrderBook::match_buy`; the result carries the book and the incoming order, which
the source takes by reference.  The fuel is never exhausted (`match_buy_loop_none`). -/
def LimitOrderBook.match_buy (lob : LimitOrderBook) (incoming : Order) :
    Option (LimitOrderBook × Order) :=
  match_buy_loop (levels_size lob.asks.levels + 2) lob incoming

/-- Member `LimitOrderBook::match_sell`; the result carries the book and the incoming order, which
the source takes by reference.  The fuel is never exhausted (`match_sell_loop_none`). -/
def LimitOrderBook.match_sell (lob : LimitOrderBook) (incoming : Order) :
    Option (LimitOrderBook × Order) :=
  match_sell_loop (levels_size lob.bids.levels + 2) lob incoming

/-- Member `LimitOrderBook::add_limit_order`. -/
def LimitOrderBook.add_limit_order (lob : LimitOrderBook) (id : Int) (side : Side) (price : ℚ)
    (quantity : Int) : Option LimitOrderBook :=
  let incoming : Order := ⟨id, side, price, quantity, lob.ts_counter⟩
  let lob := { lob with ts_counter := lob.ts_counter + 1 }
  match side with
  | .BUY =>
    match lob.match_buy incoming with
    | none => none
    | some (lob, incoming) =>
      if incoming.quantity > 0 then
        let bids := lob.bids.add_order incoming
        let level := levels_at incoming.price bids.levels
        some { lob with
               bids := bids
               order_index := index_assign lob.order_index id incoming.price (level.length - 1) }
      else some lob
  | .SELL =>
    match lob.match_sell incoming with
    | none => none
    | some (lob, incoming) =>
      if incoming.quantity > 0 then
        let asks := lob.asks.add_order incoming
        let level := levels_at incoming.price asks.levels
        some { lob with
               asks := asks
               order_index := index_assign lob.order_index id incoming.price (level.length - 1) }
      else some lob

/-- Member `LimitOrderBook::add_market_order`: the unfilled remainder is dropped. -/
def LimitOrderBook.add_market_order (lob : LimitOrderBook) (id : Int) (side : Side)
    (quantity : Int) : Option LimitOrderBook :=
  let extreme_price : ℚ := if side = Side.BUY then DBL_MAX else 0
  let incoming : Order := ⟨id, side, extreme_price, quantity, lob.ts_counter⟩
  let lob := { lob with ts_counter := lob.ts_counter + 1 }
  if side = Side.BUY then (lob.match_buy incoming).map Prod.fst
  else (lob.match_sell incoming).map Prod.fst

/-- What `cancel_order` prints: "Cancelled order" or "not found". -/
inductive CancelResult where
  | Cancelled
  | NotFound
deriving DecidableEq, Repr

/-- Member `LimitOrderBook::cancel_order`.  `vec.erase(it)` with `it` outside `vec` is
undefined. -/
def LimitOrderBook.cancel_order (lob : LimitOrderBook) (id : Int) :
    Option (LimitOrderBook × CancelResult) :=
  match lob.order_index id with
  | none => some (lob, .NotFound)
  | some (price, it) =>
    let is_bid := levels_count price lob.bids.levels
    let side := if is_bid then lob.bids else lob.asks
    let vec := levels_at price side.levels
    if it < vec.length then
      let vec' := vec.eraseIdx it
      let levels' := if vec' = [] then levels_erase price side.levels
                     else levels_modify side.is_bid price (fun _ => vec') side.levels
      let side' := { side with levels := levels' }
      let order_index' := index_erase lob.order_index id
      if is_bid then some ({ lob with bids := side', order_index := order_index' }, .Cancelled)
      else some ({ lob with asks := side', order_index := order_index' }, .Cancelled)
    else none

/-- The commands the engine accepts. -/
inductive Op where
  | limit (id : Int) (side : Side) (price : ℚ) (quantity : Int)
  | market (id : Int) (side : Side) (quantity : Int)
  | cancel (id : Int)
deriving DecidableEq, Repr

/-- One command applied to the engine. -/
def step (lob : LimitOrderBook) : Op → Option LimitOrderBook
  | .limit id side price quantity => lob.add_limit_order id side price quantity
  | .market id side quantity => lob.add_market_order id side quantity
  | .cancel id => (lob.cancel_order id).map Prod.fst

/-- A sequence of commands applied in order; `none` once a command is undefined. -/
def run (lob : LimitOrderBook) : List Op → Option LimitOrderBook
  | [] => some lob
  | op :: ops =>
    match step lob op with
    | none => none
    | some lob' => run lob' ops

/-- States the engine reaches from the freshly constructed book. -/
def Reachable (s : LimitOrderBook) : Prop := ∃ ops, run LimitOrderBook.empty ops = some s

/-! ## Notions the properties are stated with -/

/-- The states a run of the loop of `match_buy` passes through at its guard, from a start. -/
inductive BuyIterates (lob : LimitOrderBook) (incoming : Order) :
    LimitOrderBook → Order → Prop where
  | start : BuyIterates lob incoming lob incoming
  | body {l1 i1 l2 i2} : BuyIterates lob incoming l1 i1 → match_buy_iter l1 i1 = .next l2 i2 →
      BuyIterates lob incoming l2 i2

/-- The states a run of the loop of `match_sell` passes through at its guard, from a start. -/
inductive SellIterates (lob : LimitOrderBook) (incoming : Order) :
    LimitOrderBook → Order → Prop where
  | start : SellIterates lob incoming lob incoming
  | body {l1 i1 l2 i2} : SellIterates lob incoming l1 i1 → match_sell_iter l1 i1 = .next l2 i2 →
      SellIterates lob incoming l2 i2

/-- A resting order is sound for the level keyed `key` of the side `side`. -/
def OrderOK (side : Side) (key : ℚ) (ts : Int) (o : Order) : Prop :=
  o.quantity > 0 ∧ o.price = key ∧ o.side = side ∧ o.timestamp < ts

/-- A level is non-empty, holds sound orders, in strictly increasing arrival order. -/
def LevelOK (side : Side) (ts : Int) (pv : ℚ × List Order) : Prop :=
  pv.2 ≠ [] ∧ (∀ o ∈ pv.2, OrderOK side pv.1 ts o) ∧
    pv.2.Pairwise (fun a b => a.timestamp < b.timestamp)

/-- The keys of a side are in strict comparator order and every level is sound. -/
def SideWF (is_bid : Bool) (side : Side) (ts : Int) (l : Levels) : Prop :=
  l.Pairwise (fun a b => comparator is_bid a.1 b.1 = true) ∧ ∀ pv ∈ l, LevelOK side ts pv

/-- Well-formedness of the book, with every resting timestamp below `ts`. -/
structure WFat (ts : Int) (s : LimitOrderBook) : Prop where
  bids_flag : s.bids.is_bid = true
  asks_flag : s.asks.is_bid = false
  bids_wf : SideWF true Side.BUY ts s.bids.levels
  asks_wf : SideWF false Side.SELL ts s.asks.levels
  trades_pos : ∀ t ∈ s.trades, t.quantity > 0

/-- Well-formedness of the book: every resting timestamp is below the counter. -/
def WF (s : LimitOrderBook) : Prop := WFat s.ts_counter s

/-- Sum of the quantities of a list of trades. -/
def trades_qty (ts : List Trade) : Int := (ts.map (fun t => t.quantity)).sum

/-- Sum of the remaining quantities of the orders of one level. -/
def orders_qty (v : List Order) : Int := (v.map (fun o => o.quantity)).sum

/-- Sum of the remaining quantities of the orders resting on one side. -/
def levels_qty (l : Levels) : Int := (l.map (fun pv => orders_qty pv.2)).sum

/-- The side of the book on which an order of side `side` rests. -/
def LimitOrderBook.own_side (s : LimitOrderBook) : Side → BookSide
  | .BUY => s.bids
  | .SELL => s.asks

/-- The side of the book an incoming order of side `side` is matched against. -/
def LimitOrderBook.opposite_side (s : LimitOrderBook) : Side → BookSide
  | .BUY => s.asks
  | .SELL => s.bids

/-- The command is a limit-order submission. -/
def Op.is_limit : Op → Bool
  | .limit _ _ _ _ => true
  | _ => false

/-- The command is a limit order with a positive price that is a finite `double` and a
positive quantity. -/
def Op.is_positive_limit : Op → Bool
  | .limit _ _ price quantity =>
    decide (0 < price) && decide (price ≤ DBL_MAX) && decide (0 < quantity)
  | _ => false

/-- Every level key of the book is a positive finite `double`. -/
def KeysPositive (s : LimitOrderBook) : Prop :=
  (∀ pv ∈ s.bids.levels, 0 < pv.1 ∧ pv.1 ≤ DBL_MAX) ∧
  (∀ pv ∈ s.asks.levels, 0 < pv.1 ∧ pv.1 ≤ DBL_MAX)

/-- The resting orders of one side in priority order: levels in map order, each level from
its front to its back. -/
def levels_orders : Levels → List Order
  | [] => []
  | (_, v) :: rest => v ++ levels_orders rest

theorem match_buy_iter_next {lob : LimitOrderBook} {inc : Order} {lob' : LimitOrderBook}
    {inc' : Order} (h : match_buy_iter lob inc = .next lob' inc') :
    ∃ p resting tail rest, inc.quantity > 0 ∧ lob.asks.levels = (p, resting :: tail) :: rest ∧
      ¬ p > inc.price ∧
      inc' = { inc with quantity := inc.quantity - min inc.quantity resting.quantity } ∧
      lob'.trades = lob.trades ++ [⟨inc.id, resting.id, p, min inc.quantity resting.quantity⟩] ∧
      lob'.bids = lob.bids ∧ lob'.ts_counter = lob.ts_counter ∧
      lob'.asks.is_bid = lob.asks.is_bid ∧
      ((resting.quantity - min inc.quantity resting.quantity = 0 ∧
          lob'.order_index = index_erase lob.order_index resting.id ∧
          lob'.asks.levels = if tail = [] then rest else (p, tail) :: rest) ∨
       (resting.quantity - min inc.quantity resting.quantity ≠ 0 ∧
          lob'.order_index = lob.order_index ∧
          lob'.asks.levels =
            (p, { resting with quantity := resting.quantity - min inc.quantity resting.quantity }
                  :: tail) :: rest)) := by
  unfold match_buy_iter at h
  split at h
  · rename_i hq
    split at h
    · cases h
    · rename_i p lvl rest hl
      split at h
      · cases h
      · rename_i hp
        split at h
        · cases h
        · rename_i resting tail
          refine ⟨p, resting, tail, rest, hq, hl, hp, ?_⟩
          dsimp only at h
          split at h
          · rename_i hz
            cases h
            exact ⟨rfl, rfl, rfl, rfl, rfl, Or.inl ⟨hz, rfl, rfl⟩⟩
          · rename_i hz
            cases h
            exact ⟨rfl, rfl, rfl, rfl, rfl, Or.inr ⟨hz, rfl, rfl⟩⟩
  · cases h

theorem match_sell_iter_next {lob : LimitOrderBook} {inc : Order} {lob' : LimitOrderBook}
    {inc' : Order} (h : match_sell_iter lob inc = .next lob' inc') :
    ∃ p resting tail rest, inc.quantity > 0 ∧ lob.bids.levels = (p, resting :: tail) :: rest ∧
      ¬ p < inc.price ∧
      inc' = { inc with quantity := inc.quantity - min inc.quantity resting.quantity } ∧
      lob'.trades = lob.trades ++ [⟨resting.id, inc.id, p, min inc.quantity resting.quantity⟩] ∧
      lob'.asks = lob.asks ∧ lob'.ts_counter = lob.ts_counter ∧
      lob'.bids.is_bid = lob.bids.is_bid ∧
      ((resting.quantity - min inc.quantity resting.quantity = 0 ∧
          lob'.order_index = index_erase lob.order_index resting.id ∧
          lob'.bids.levels = if tail = [] then rest else (p, tail) :: rest) ∨
       (resting.quantity - min inc.quantity resting.quantity ≠ 0 ∧
          lob'.order_index = lob.order_index ∧
          lob'.bids.levels =
            (p, { resting with quantity := resting.quantity - min inc.quantity resting.quantity }
                  :: tail) :: rest)) := by
  unfold match_sell_iter at h
  split at h
  · rename_i hq
    split at h
    · cases h
    · rename_i p lvl rest hl
      split at h
      · cases h
      · rename_i hp
        split at h
        · cases h
        · rename_i resting tail
          refine ⟨p, resting, tail, rest, hq, hl, hp, ?_⟩
          dsimp only at h
          split at h
          · rename_i hz
            cases h
            exact ⟨rfl, rfl, rfl, rfl, rfl, Or.inl ⟨hz, rfl, rfl⟩⟩
          · rename_i hz
            cases h
            exact ⟨rfl, rfl, rfl, rfl, rfl, Or.inr ⟨hz, rfl, rfl⟩⟩
  · cases h

theorem buyIterates_prepend {l i l1 i1 l2 i2} (hn : match_buy_iter l i = .next l1 i1)
    (hit : BuyIterates l1 i1 l2 i2) : BuyIterates l i l2 i2 := by
  induction hit with
  | start => exact .body .start hn
  | body _ hb ih => exact .body ih hb

theorem sellIterates_prepend {l i l1 i1 l2 i2} (hn : match_sell_iter l i = .next l1 i1)
    (hit : SellIterates l1 i1 l2 i2) : SellIterates l i l2 i2 := by
  induction hit with
  | start => exact .body .start hn
  | body _ hb ih => exact .body ih hb

/-- A loop that returns has passed through iterates of its body and stopped at an exit. -/
theorem match_buy_loop_iterates : ∀ (fuel : Nat) (lob : LimitOrderBook) (inc : Order)
    (r : LimitOrderBook × Order), match_buy_loop fuel lob inc = some r →
    BuyIterates lob inc r.1 r.2 ∧ match_buy_iter r.1 r.2 = .exit := by
  intro fuel
  induction fuel with
  | zero => intro lob inc r h; simp [match_buy_loop] at h
  | succ n ih =>
    intro lob inc r h
    unfold match_buy_loop at h
    split at h
    · rename_i he
      cases h
      exact ⟨.start, he⟩
    · cases h
    · rename_i l1 i1 hn
      obtain ⟨hit, hex⟩ := ih l1 i1 r h
      exact ⟨buyIterates_prepend hn hit, hex⟩

theorem match_sell_loop_iterates : ∀ (fuel : Nat) (lob : LimitOrderBook) (inc : Order)
    (r : LimitOrderBook × Order), match_sell_loop fuel lob inc = some r →
    SellIterates lob inc r.1 r.2 ∧ match_sell_iter r.1 r.2 = .exit := by
  intro fuel
  induction fuel with
  | zero => intro lob inc r h; simp [match_sell_loop] at h
  | succ n ih =>
    intro lob inc r h
    unfold match_sell_loop at h
    split at h
    · rename_i he
      cases h
      exact ⟨.start, he⟩
    · cases h
    · rename_i l1 i1 hn
      obtain ⟨hit, hex⟩ := ih l1 i1 r h
      exact ⟨sellIterates_prepend hn hit, hex⟩

/-! ## The comparator and the map operations -/

theorem comparator_trans {b : Bool} {x y z : ℚ} (h1 : comparator b x y = true)
    (h2 : comparator b y z = true) : comparator b x z = true := by
  cases b <;> simp [comparator] at * <;> linarith

theorem comparator_total {b : Bool} {x y : ℚ} (hne : y ≠ x) (h : ¬ comparator b x y = true) :
    comparator b y x = true := by
  cases b <;> simp [comparator] at *
  · exact lt_of_le_of_ne h hne
  · exact lt_of_le_of_ne h (Ne.symm hne)

theorem mem_levels_modify {b : Bool} {price : ℚ} {f : List Order → List Order} :
    ∀ {l : Levels} {pv : ℚ × List Order}, pv ∈ levels_modify b price f l →
      pv ∈ l ∨ (pv.1 = price ∧ ((∃ v, (price, v) ∈ l ∧ pv.2 = f v) ∨ pv.2 = f [])) := by
  intro l
  induction l with
  | nil =>
    intro pv h
    simp [levels_modify] at h
    subst h
    exact Or.inr ⟨rfl, Or.inr rfl⟩
  | cons hd rest ih =>
    obtain ⟨p, v⟩ := hd
    intro pv h
    unfold levels_modify at h
    split at h
    · rename_i hp
      subst hp
      rcases List.mem_cons.mp h with h | h
      · subst h
        exact Or.inr ⟨rfl, Or.inl ⟨v, List.mem_cons_self _ _, rfl⟩⟩
      · exact Or.inl (List.mem_cons_of_mem _ h)
    · split at h
      · rcases List.mem_cons.mp h with h | h
        · subst h
          exact Or.inr ⟨rfl, Or.inr rfl⟩
        · exact Or.inl h
      · rcases List.mem_cons.mp h with h | h
        · subst h
          exact Or.inl (List.mem_cons_self _ _)
        · rcases ih h with h | ⟨h1, h2⟩
          · exact Or.inl (List.mem_cons_of_mem _ h)
          · refine Or.inr ⟨h1, ?_⟩
            rcases h2 with ⟨w, hw, he⟩ | h2
            · exact Or.inl ⟨w, List.mem_cons_of_mem _ hw, he⟩
            · exact Or.inr h2

theorem levels_modify_sorted {b : Bool} {price : ℚ} {f : List Order → List Order} :
    ∀ {l : Levels}, l.Pairwise (fun x y => comparator b x.1 y.1 = true) →
      (levels_modify b price f l).Pairwise (fun x y => comparator b x.1 y.1 = true) := by
  intro l
  induction l with
  | nil => intro _; simp [levels_modify]
  | cons hd rest ih =>
    obtain ⟨p, v⟩ := hd
    intro h
    rw [List.pairwise_cons] at h
    unfold levels_modify
    split
    · exact List.pairwise_cons.mpr ⟨h.1, h.2⟩
    · rename_i hne
      split
      · rename_i hc
        refine List.pairwise_cons.mpr ⟨?_, List.pairwise_cons.mpr h⟩
        intro y hy
        rcases List.mem_cons.mp hy with hy | hy
        · subst hy; exact hc
        · exact comparator_trans hc (h.1 y hy)
      · rename_i hc
        refine List.pairwise_cons.mpr ⟨?_, ih h.2⟩
        intro y hy
        rcases mem_levels_modify hy with hy | ⟨hy, _⟩
        · exact h.1 y hy
        · show comparator b p y.1 = true
          rw [hy]
          exact comparator_total hne hc

theorem levels_erase_sublist (price : ℚ) : ∀ l : Levels, (levels_erase price l).Sublist l := by
  intro l
  induction l with
  | nil => exact List.Sublist.refl _
  | cons hd rest ih =>
    obtain ⟨p, v⟩ := hd
    unfold levels_erase
    split
    · exact List.sublist_cons_self _ _
    · exact List.Sublist.cons₂ _ ih

theorem levels_at_mem {price : ℚ} : ∀ {l : Levels}, levels_at price l ≠ [] →
    (price, levels_at price l) ∈ l := by
  intro l
  induction l with
  | nil => intro h; simp [levels_at] at h
  | cons hd rest ih =>
    obtain ⟨p, v⟩ := hd
    intro h
    unfold levels_at at h ⊢
    split
    · rename_i hp
      subst hp
      exact List.mem_cons_self _ _
    · rename_i hp
      rw [if_neg hp] at h
      exact List.mem_cons_of_mem _ (ih h)

theorem levels_count_iff (p : ℚ) : ∀ l : Levels,
    levels_count p l = true ↔ ∃ pv ∈ l, pv.1 = p := by
  intro l
  induction l with
  | nil => simp [levels_count]
  | cons hd rest ih =>
    obtain ⟨k, v⟩ := hd
    unfold levels_count
    split
    · rename_i hk
      simp [hk]
    · rename_i hk
      rw [ih]
      simp [hk]

theorem levels_count_subset {l l' : Levels}
    (h : ∀ pv ∈ l', ∃ pv0 ∈ l, pv0.1 = pv.1) (p : ℚ) (hc : levels_count p l' = true) :
    levels_count p l = true := by
  obtain ⟨pv, hm, he⟩ := (levels_count_iff p l').mp hc
  obtain ⟨pv0, hm0, he0⟩ := h pv hm
  exact (levels_count_iff p l).mpr ⟨pv0, hm0, he0.trans he⟩

/-! ## Well-formedness is kept by every operation -/

theorem sideWF_sublist {b : Bool} {side : Side} {ts : Int} {l l' : Levels}
    (hs : l'.Sublist l) (h : SideWF b side ts l) : SideWF b side ts l' :=
  ⟨h.1.sublist hs, fun pv hpv => h.2 pv (hs.subset hpv)⟩

theorem sideWF_pop {b : Bool} {side : Side} {ts : Int} {p : ℚ} {r : Order} {tail : List Order}
    {rest : Levels} (h : SideWF b side ts ((p, r :: tail) :: rest)) :
    SideWF b side ts (if tail = [] then rest else (p, tail) :: rest) := by
  split
  · exact sideWF_sublist (List.sublist_cons_self _ _) h
  · rename_i hne
    obtain ⟨h1, h2⟩ := h
    rw [List.pairwise_cons] at h1
    refine ⟨List.pairwise_cons.mpr ⟨h1.1, h1.2⟩, ?_⟩
    intro pv hpv
    rcases List.mem_cons.mp hpv with hpv | hpv
    · subst hpv
      obtain ⟨_, ho, hp⟩ := h2 _ (List.mem_cons_self _ _)
      exact ⟨hne, fun o ho' => ho o (List.mem_cons_of_mem _ ho'), (List.pairwise_cons.mp hp).2⟩
    · exact h2 pv (List.mem_cons_of_mem _ hpv)

theorem sideWF_reduce {b : Bool} {side : Side} {ts : Int} {p : ℚ} {r : Order}
    {tail : List Order} {rest : Levels} (h : SideWF b side ts ((p, r :: tail) :: rest))
    (q : Int) (hq : 0 < q) :
    SideWF b side ts ((p, { r with quantity := q } :: tail) :: rest) := by
  obtain ⟨h1, h2⟩ := h
  rw [List.pairwise_cons] at h1
  refine ⟨List.pairwise_cons.mpr ⟨h1.1, h1.2⟩, ?_⟩
  intro pv hpv
  rcases List.mem_cons.mp hpv with hpv | hpv
  · subst hpv
    obtain ⟨_, ho, hp⟩ := h2 _ (List.mem_cons_self _ _)
    refine ⟨by simp, ?_, ?_⟩
    · intro o ho'
      rcases List.mem_cons.mp ho' with ho' | ho'
      · subst ho'
        obtain ⟨_, h2, h3, h4⟩ := ho r (List.mem_cons_self _ _)
        exact ⟨hq, h2, h3, h4⟩
      · exact ho o (List.mem_cons_of_mem _ ho')
    · rw [List.pairwise_cons] at hp ⊢
      exact ⟨hp.1, hp.2⟩
  · exact h2 pv (List.mem_cons_of_mem _ hpv)

theorem sideWF_mono {b : Bool} {side : Side} {ts ts' : Int} {l : Levels} (hle : ts ≤ ts')
    (h : SideWF b side ts l) : SideWF b side ts' l := by
  refine ⟨h.1, fun pv hpv => ?_⟩
  obtain ⟨h1, h2, h3⟩ := h.2 pv hpv
  refine ⟨h1, fun o ho => ?_, h3⟩
  obtain ⟨a, b, c, d⟩ := h2 o ho
  exact ⟨a, b, c, lt_of_lt_of_le d hle⟩

theorem sideWF_head {b : Bool} {side : Side} {ts : Int} {p : ℚ} {r : Order} {tail : List Order}
    {rest : Levels} (h : SideWF b side ts ((p, r :: tail) :: rest)) : OrderOK side p ts r :=
  (h.2 _ (List.mem_cons_self _ _)).2.1 r (List.mem_cons_self _ _)

theorem match_buy_iter_wf {ts : Int} {lob lob' : LimitOrderBook} {inc inc' : Order}
    (h : match_buy_iter lob inc = .next lob' inc') (hw : WFat ts lob) : WFat ts lob' := by
  obtain ⟨p, resting, tail, rest, hq, hl, _, _, htr, hb, _, hflag, hcase⟩ :=
    match_buy_iter_next h
  have hs := hw.asks_wf
  rw [hl] at hs
  have hr := sideWF_head hs
  refine ⟨by rw [hb]; exact hw.bids_flag, by rw [hflag]; exact hw.asks_flag,
    by rw [hb]; exact hw.bids_wf, ?_, ?_⟩
  · rcases hcase with ⟨_, _, hl'⟩ | ⟨hz, _, hl'⟩
    · rw [hl']; exact sideWF_pop hs
    · rw [hl']; exact sideWF_reduce hs _ (by have := hr.1; omega)
  · intro t ht
    rw [htr] at ht
    rcases List.mem_append.mp ht with ht | ht
    · exact hw.trades_pos t ht
    · simp at ht
      subst ht
      have := hr.1
      show min inc.quantity resting.quantity > 0
      omega

theorem match_sell_iter_wf {ts : Int} {lob lob' : LimitOrderBook} {inc inc' : Order}
    (h : match_sell_iter lob inc = .next lob' inc') (hw : WFat ts lob) : WFat ts lob' := by
  obtain ⟨p, resting, tail, rest, hq, hl, _, _, htr, hb, _, hflag, hcase⟩ :=
    match_sell_iter_next h
  have hs := hw.bids_wf
  rw [hl] at hs
  have hr := sideWF_head hs
  refine ⟨by rw [hflag]; exact hw.bids_flag, by rw [hb]; exact hw.asks_flag, ?_,
    by rw [hb]; exact hw.asks_wf, ?_⟩
  · rcases hcase with ⟨_, _, hl'⟩ | ⟨hz, _, hl'⟩
    · rw [hl']; exact sideWF_pop hs
    · rw [hl']; exact sideWF_reduce hs _ (by have := hr.1; omega)
  · intro t ht
    rw [htr] at ht
    rcases List.mem_append.mp ht with ht | ht
    · exact hw.trades_pos t ht
    · simp at ht
      subst ht
      have := hr.1
      show min inc.quantity resting.quantity > 0
      omega

theorem buyIterates_wf {ts : Int} {lob l1 : LimitOrderBook} {inc i1 : Order}
    (hit : BuyIterates lob inc l1 i1) (hw : WFat ts lob) : WFat ts l1 := by
  induction hit with
  | start => exact hw
  | body _ hb ih => exact match_buy_iter_wf hb ih

theorem sellIterates_wf {ts : Int} {lob l1 : LimitOrderBook} {inc i1 : Order}
    (hit : SellIterates lob inc l1 i1) (hw : WFat ts lob) : WFat ts l1 := by
  induction hit with
  | start => exact hw
  | body _ hb ih => exact match_sell_iter_wf hb ih

/-! ## The loops return -/

theorem match_buy_iter_undefined {lob : LimitOrderBook} {inc : Order}
    (h : match_buy_iter lob inc = .undefined) : ∃ p rest, lob.asks.levels = (p, []) :: rest := by
  unfold match_buy_iter at h
  split at h
  · split at h
    · cases h
    · rename_i p lvl rest hl
      split at h
      · cases h
      · split at h
        · exact ⟨p, rest, hl⟩
        · dsimp only at h
          split at h <;> cases h
  · cases h

theorem match_sell_iter_undefined {lob : LimitOrderBook} {inc : Order}
    (h : match_sell_iter lob inc = .undefined) : ∃ p rest, lob.bids.levels = (p, []) :: rest := by
  unfold match_sell_iter at h
  split at h
  · split at h
    · cases h
    · rename_i p lvl rest hl
      split at h
      · cases h
      · split at h
        · exact ⟨p, rest, hl⟩
        · dsimp only at h
          split at h <;> cases h
  · cases h

theorem levels_size_cons (p : ℚ) (v : List Order) (rest : Levels) :
    levels_size ((p, v) :: rest) = v.length + levels_size rest := by
  simp [levels_size]

/-- With every level non-empty, a loop given at least as much fuel as there are resting
orders on the opposite side, plus two, returns. -/
theorem match_buy_loop_total : ∀ (fuel : Nat) (lob : LimitOrderBook) (inc : Order),
    (∀ pv ∈ lob.asks.levels, pv.2 ≠ []) →
    levels_size lob.asks.levels + (if inc.quantity > 0 then 2 else 1) ≤ fuel →
    ∃ r, match_buy_loop fuel lob inc = some r := by
  intro fuel
  induction fuel with
  | zero => intro lob inc _ h; split at h <;> omega
  | succ n ih =>
    intro lob inc hne hf
    unfold match_buy_loop
    split
    · exact ⟨_, rfl⟩
    · rename_i hu
      obtain ⟨p, rest, hl⟩ := match_buy_iter_undefined hu
      exact absurd rfl (hne (p, []) (by rw [hl]; exact List.mem_cons_self _ _))
    · rename_i l1 i1 hn
      obtain ⟨p, resting, tail, rest, hq, hl, _, hi, _, _, _, _, hcase⟩ := match_buy_iter_next hn
      rw [hl] at hne hf
      rw [if_pos hq, levels_size_cons] at hf
      apply ih
      · rcases hcase with ⟨_, _, hl'⟩ | ⟨_, _, hl'⟩
        · rw [hl']
          intro pv hpv
          split at hpv
          · exact hne pv (List.mem_cons_of_mem _ hpv)
          · rename_i ht
            rcases List.mem_cons.mp hpv with hpv | hpv
            · subst hpv; exact ht
            · exact hne pv (List.mem_cons_of_mem _ hpv)
        · rw [hl']
          intro pv hpv
          rcases List.mem_cons.mp hpv with hpv | hpv
          · subst hpv; simp
          · exact hne pv (List.mem_cons_of_mem _ hpv)
      · rcases hcase with ⟨_, _, hl'⟩ | ⟨hz, _, hl'⟩
        · rw [hl']
          have h2 : levels_size (if tail = [] then rest else (p, tail) :: rest)
              = tail.length + levels_size rest := by
            split
            · rename_i ht; subst ht; simp
            · exact levels_size_cons _ _ _
          rw [h2]
          simp only [List.length_cons] at hf
          split <;> omega
        · rw [hl', levels_size_cons]
          have hi0 : i1.quantity = 0 := by rw [hi]; show inc.quantity - _ = 0; omega
          rw [hi0]
          simp only [List.length_cons] at hf ⊢
          simp
          omega

theorem match_sell_loop_total : ∀ (fuel : Nat) (lob : LimitOrderBook) (inc : Order),
    (∀ pv ∈ lob.bids.levels, pv.2 ≠ []) →
    levels_size lob.bids.levels + (if inc.quantity > 0 then 2 else 1) ≤ fuel →
    ∃ r, match_sell_loop fuel lob inc = some r := by
  intro fuel
  induction fuel with
  | zero => intro lob inc _ h; split at h <;> omega
  | succ n ih =>
    intro lob inc hne hf
    unfold match_sell_loop
    split
    · exact ⟨_, rfl⟩
    · rename_i hu
      obtain ⟨p, rest, hl⟩ := match_sell_iter_undefined hu
      exact absurd rfl (hne (p, []) (by rw [hl]; exact List.mem_cons_self _ _))
    · rename_i l1 i1 hn
      obtain ⟨p, resting, tail, rest, hq, hl, _, hi, _, _, _, _, hcase⟩ :=
        match_sell_iter_next hn
      rw [hl] at hne hf
      rw [if_pos hq, levels_size_cons] at hf
      apply ih
      · rcases hcase with ⟨_, _, hl'⟩ | ⟨_, _, hl'⟩
        · rw [hl']
          intro pv hpv
          split at hpv
          · exact hne pv (List.mem_cons_of_mem _ hpv)
          · rename_i ht
            rcases List.mem_cons.mp hpv with hpv | hpv
            · subst hpv; exact ht
            · exact hne pv (List.mem_cons_of_mem _ hpv)
        · rw [hl']
          intro pv hpv
          rcases List.mem_cons.mp hpv with hpv | hpv
          · subst hpv; simp
          · exact hne pv (List.mem_cons_of_mem _ hpv)
      · rcases hcase with ⟨_, _, hl'⟩ | ⟨hz, _, hl'⟩
        · rw [hl']
          have h2 : levels_size (if tail = [] then rest else (p, tail) :: rest)
              = tail.length + levels_size rest := by
            split
            · rename_i ht; subst ht; simp
            · exact levels_size_cons _ _ _
          rw [h2]
          simp only [List.length_cons] at hf
          split <;> omega
        · rw [hl', levels_size_cons]
          have hi0 : i1.quantity = 0 := by rw [hi]; show inc.quantity - _ = 0; omega
          rw [hi0]
          simp only [List.length_cons] at hf ⊢
          simp
          omega

/-- The fuel `match_buy` supplies is enough on every book without an empty level. -/
theorem match_buy_loop_fuel (lob : LimitOrderBook) (inc : Order)
    (hne : ∀ pv ∈ lob.asks.levels, pv.2 ≠ []) : ∃ r, lob.match_buy inc = some r := by
  apply match_buy_loop_total _ _ _ hne
  split <;> omega

/-- The fuel `match_sell` supplies is enough on every book without an empty level. -/
theorem match_sell_loop_fuel (lob : LimitOrderBook) (inc : Order)
    (hne : ∀ pv ∈ lob.bids.levels, pv.2 ≠ []) : ∃ r, lob.match_sell inc = some r := by
  apply match_sell_loop_total _ _ _ hne
  split <;> omega

/-- Every run of a loop body lowers the number of resting orders of the opposite side plus
two while the incoming quantity is positive, plus one otherwise. -/
theorem match_buy_iter_measure {lob l1 : LimitOrderBook} {inc i1 : Order}
    (hn : match_buy_iter lob inc = .next l1 i1) :
    levels_size l1.asks.levels + (if i1.quantity > 0 then 2 else 1) + 1
      ≤ levels_size lob.asks.levels + (if inc.quantity > 0 then 2 else 1) := by
  obtain ⟨p, resting, tail, rest, hq, hl, _, hi, _, _, _, _, hcase⟩ := match_buy_iter_next hn
  rw [hl, if_pos hq, levels_size_cons]
  rcases hcase with ⟨_, _, hl'⟩ | ⟨hz, _, hl'⟩
  · rw [hl']
    have h2 : levels_size (if tail = [] then rest else (p, tail) :: rest)
        = tail.length + levels_size rest := by
      split
      · rename_i ht; subst ht; simp
      · exact levels_size_cons _ _ _
    rw [h2]
    simp only [List.length_cons]
    split <;> omega
  · rw [hl', levels_size_cons]
    have hi0 : i1.quantity = 0 := by rw [hi]; show inc.quantity - _ = 0; omega
    rw [hi0]
    simp only [List.length_cons]
    simp

theorem match_sell_iter_measure {lob l1 : LimitOrderBook} {inc i1 : Order}
    (hn : match_sell_iter lob inc = .next l1 i1) :
    levels_size l1.bids.levels + (if i1.quantity > 0 then 2 else 1) + 1
      ≤ levels_size lob.bids.levels + (if inc.quantity > 0 then 2 else 1) := by
  obtain ⟨p, resting, tail, rest, hq, hl, _, hi, _, _, _, _, hcase⟩ := match_sell_iter_next hn
  rw [hl, if_pos hq, levels_size_cons]
  rcases hcase with ⟨_, _, hl'⟩ | ⟨hz, _, hl'⟩
  · rw [hl']
    have h2 : levels_size (if tail = [] then rest else (p, tail) :: rest)
        = tail.length + levels_size rest := by
      split
      · rename_i ht; subst ht; simp
      · exact levels_size_cons _ _ _
    rw [h2]
    simp only [List.length_cons]
    split <;> omega
  · rw [hl', levels_size_cons]
    have hi0 : i1.quantity = 0 := by rw [hi]; show inc.quantity - _ = 0; omega
    rw [hi0]
    simp only [List.length_cons]
    simp

/-- With the fuel `match_buy` supplies, the loop yields no result only when a body calls
`front()` on an empty vector: the fuel is never exhausted. -/
theorem match_buy_loop_none : ∀ (fuel : Nat) (lob : LimitOrderBook) (inc : Order),
    levels_size lob.asks.levels + (if inc.quantity > 0 then 2 else 1) ≤ fuel →
    match_buy_loop fuel lob inc = none →
    ∃ l1 i1, BuyIterates lob inc l1 i1 ∧ match_buy_iter l1 i1 = .undefined := by
  intro fuel
  induction fuel with
  | zero => intro lob inc h; split at h <;> omega
  | succ n ih =>
    intro lob inc hf h
    unfold match_buy_loop at h
    split at h
    · cases h
    · rename_i hu; exact ⟨lob, inc, .start, hu⟩
    · rename_i l1 i1 hn
      have hm := match_buy_iter_measure hn
      obtain ⟨l2, i2, hit, hu⟩ := ih l1 i1 (by omega) h
      exact ⟨l2, i2, buyIterates_prepend hn hit, hu⟩

/-- With the fuel `match_sell` supplies, the loop yields no result only when a body calls
`front()` on an empty vector: the fuel is never exhausted. -/
theorem match_sell_loop_none : ∀ (fuel : Nat) (lob : LimitOrderBook) (inc : Order),
    levels_size lob.bids.levels + (if inc.quantity > 0 then 2 else 1) ≤ fuel →
    match_sell_loop fuel lob inc = none →
    ∃ l1 i1, SellIterates lob inc l1 i1 ∧ match_sell_iter l1 i1 = .undefined := by
  intro fuel
  induction fuel with
  | zero => intro lob inc h; split at h <;> omega
  | succ n ih =>
    intro lob inc hf h
    unfold match_sell_loop at h
    split at h
    · cases h
    · rename_i hu; exact ⟨lob, inc, .start, hu⟩
    · rename_i l1 i1 hn
      have hm := match_sell_iter_measure hn
      obtain ⟨l2, i2, hit, hu⟩ := ih l1 i1 (by omega) h
      exact ⟨l2, i2, sellIterates_prepend hn hit, hu⟩

/-! ## What a run of a loop leaves unchanged -/

theorem buyIterates_frame {lob l1 : LimitOrderBook} {inc i1 : Order}
    (hit : BuyIterates lob inc l1 i1) :
    l1.bids = lob.bids ∧ l1.ts_counter = lob.ts_counter ∧ l1.asks.is_bid = lob.asks.is_bid ∧
      i1.id = inc.id ∧ i1.side = inc.side ∧ i1.price = inc.price ∧
      i1.timestamp = inc.timestamp := by
  induction hit with
  | start => exact ⟨rfl, rfl, rfl, rfl, rfl, rfl, rfl⟩
  | body _ hb ih =>
    obtain ⟨_, _, _, _, _, _, _, hi, _, h1, h2, h3, _⟩ := match_buy_iter_next hb
    obtain ⟨a, b, c, d, e, f, g⟩ := ih
    subst hi
    exact ⟨h1.trans a, h2.trans b, h3.trans c, d, e, f, g⟩

theorem sellIterates_frame {lob l1 : LimitOrderBook} {inc i1 : Order}
    (hit : SellIterates lob inc l1 i1) :
    l1.asks = lob.asks ∧ l1.ts_counter = lob.ts_counter ∧ l1.bids.is_bid = lob.bids.is_bid ∧
      i1.id = inc.id ∧ i1.side = inc.side ∧ i1.price = inc.price ∧
      i1.timestamp = inc.timestamp := by
  induction hit with
  | start => exact ⟨rfl, rfl, rfl, rfl, rfl, rfl, rfl⟩
  | body _ hb ih =>
    obtain ⟨_, _, _, _, _, _, _, hi, _, h1, h2, h3, _⟩ := match_sell_iter_next hb
    obtain ⟨a, b, c, d, e, f, g⟩ := ih
    subst hi
    exact ⟨h1.trans a, h2.trans b, h3.trans c, d, e, f, g⟩

/-! ## Resting an order and cancelling keep the side well-formed -/

theorem sideWF_add_order {b : Bool} {side : Side} {ts : Int} {l : Levels}
    (h : SideWF b side ts l) (o : Order) (hq : o.quantity > 0) (hs : o.side = side)
    (ht : o.timestamp = ts) :
    SideWF b side (ts + 1) (levels_modify b o.price (fun v => v ++ [o]) l) := by
  refine ⟨levels_modify_sorted h.1, ?_⟩
  have hoo : OrderOK side o.price (ts + 1) o := ⟨hq, rfl, hs, by omega⟩
  intro pv hpv
  obtain ⟨k, w⟩ := pv
  rcases mem_levels_modify hpv with hpv | ⟨hk, hw⟩
  · exact (sideWF_mono (by omega) h).2 _ hpv
  · simp only at hk hw
    subst hk
    rcases hw with ⟨v, hv, hw⟩ | hw
    · subst hw
      obtain ⟨_, h2, h3⟩ := h.2 _ hv
      refine ⟨by simp, ?_, ?_⟩
      · intro o' ho'
        rcases List.mem_append.mp ho' with ho' | ho'
        · obtain ⟨a, b, c, d⟩ := h2 o' ho'
          exact ⟨a, b, c, by omega⟩
        · simp at ho'; subst ho'; exact hoo
      · refine List.pairwise_append.mpr ⟨h3, by simp, ?_⟩
        intro a ha c hc
        simp at hc
        subst hc
        have := (h2 a ha).2.2.2
        omega
    · subst hw
      refine ⟨by simp, ?_, by simp⟩
      intro o' ho'
      simp at ho'; subst ho'; exact hoo

theorem sideWF_cancel {b : Bool} {side : Side} {ts : Int} {l : Levels}
    (h : SideWF b side ts l) (price : ℚ) (it : Nat) (hit : it < (levels_at price l).length) :
    SideWF b side ts
      (if (levels_at price l).eraseIdx it = [] then levels_erase price l
       else levels_modify b price (fun _ => (levels_at price l).eraseIdx it) l) := by
  split
  · exact sideWF_sublist (levels_erase_sublist _ _) h
  · rename_i hne
    refine ⟨levels_modify_sorted h.1, ?_⟩
    intro pv hpv
    obtain ⟨k, w⟩ := pv
    rcases mem_levels_modify hpv with hpv | ⟨hk, hw⟩
    · exact h.2 _ hpv
    · simp only at hk hw
      subst hk
      have hw' : w = (levels_at k l).eraseIdx it := by
        rcases hw with ⟨_, _, hw⟩ | hw <;> exact hw
      subst hw'
      have hmem : (k, levels_at k l) ∈ l :=
        levels_at_mem (by intro h0; rw [h0] at hit; simp at hit)
      obtain ⟨_, h2, h3⟩ := h.2 _ hmem
      have hsub := List.eraseIdx_sublist (levels_at k l) it
      exact ⟨hne, fun o ho => h2 o (hsub.subset ho), h3.sublist hsub⟩

/-! ## The operations on well-formed books -/

theorem cancel_order_some {s s' : LimitOrderBook} {id : Int} {res : CancelResult}
    (h : s.cancel_order id = some (s', res)) :
    (s.order_index id = none ∧ s' = s ∧ res = .NotFound) ∨
    (∃ price it, s.order_index id = some (price, it) ∧ res = .Cancelled ∧
      s'.trades = s.trades ∧ s'.ts_counter = s.ts_counter ∧
      s'.order_index = index_erase s.order_index id ∧
      ((levels_count price s.bids.levels = true ∧ it < (levels_at price s.bids.levels).length ∧
          s'.asks = s.asks ∧ s'.bids.is_bid = s.bids.is_bid ∧
          s'.bids.levels =
            (if (levels_at price s.bids.levels).eraseIdx it = [] then
               levels_erase price s.bids.levels
             else levels_modify s.bids.is_bid price
               (fun _ => (levels_at price s.bids.levels).eraseIdx it) s.bids.levels)) ∨
       (levels_count price s.bids.levels = false ∧
          it < (levels_at price s.asks.levels).length ∧
          s'.bids = s.bids ∧ s'.asks.is_bid = s.asks.is_bid ∧
          s'.asks.levels =
            (if (levels_at price s.asks.levels).eraseIdx it = [] then
               levels_erase price s.asks.levels
             else levels_modify s.asks.is_bid price
               (fun _ => (levels_at price s.asks.levels).eraseIdx it) s.asks.levels)))) := by
  unfold LimitOrderBook.cancel_order at h
  split at h
  · rename_i hi
    simp only [Option.some.injEq, Prod.mk.injEq] at h
    exact Or.inl ⟨hi, h.1.symm, h.2.symm⟩
  · rename_i price it hi
    right
    refine ⟨price, it, hi, ?_⟩
    dsimp only at h
    cases hc : levels_count price s.bids.levels
    · simp only [hc, Bool.false_eq_true, if_false] at h
      split at h
      · rename_i hlt
        simp only [Option.some.injEq, Prod.mk.injEq] at h
        obtain ⟨h1, h2⟩ := h
        subst h1
        exact ⟨h2.symm, rfl, rfl, rfl, Or.inr ⟨rfl, hlt, rfl, rfl, rfl⟩⟩
      · cases h
    · simp only [hc, if_true] at h
      split at h
      · rename_i hlt
        simp only [Option.some.injEq, Prod.mk.injEq] at h
        obtain ⟨h1, h2⟩ := h
        subst h1
        exact ⟨h2.symm, rfl, rfl, rfl, Or.inl ⟨rfl, hlt, rfl, rfl, rfl⟩⟩
      · cases h

theorem cancel_order_wf {s s' : LimitOrderBook} {id : Int} {res : CancelResult}
    (hw : WF s) (h : s.cancel_order id = some (s', res)) : WF s' := by
  rcases cancel_order_some h with ⟨_, h1, _⟩ | ⟨price, it, _, _, htr, hts, _, hside⟩
  · subst h1; exact hw
  · unfold WF at hw ⊢
    rw [hts]
    rcases hside with ⟨_, hlt, ha, hf, hl⟩ | ⟨_, hlt, hb, hf, hl⟩
    · refine ⟨hf.trans hw.bids_flag, by rw [ha]; exact hw.asks_flag, ?_,
        by rw [ha]; exact hw.asks_wf, by rw [htr]; exact hw.trades_pos⟩
      rw [hl, hw.bids_flag]
      exact sideWF_cancel hw.bids_wf price it hlt
    · refine ⟨by rw [hb]; exact hw.bids_flag, hf.trans hw.asks_flag,
        by rw [hb]; exact hw.bids_wf, ?_, by rw [htr]; exact hw.trades_pos⟩
      rw [hl, hw.asks_flag]
      exact sideWF_cancel hw.asks_wf price it hlt

theorem add_limit_order_buy_some {s s' : LimitOrderBook} {id : Int} {price : ℚ} {q : Int}
    (h : s.add_limit_order id Side.BUY price q = some s') :
    ∃ l1 i1, BuyIterates { s with ts_counter := s.ts_counter + 1 }
        ⟨id, Side.BUY, price, q, s.ts_counter⟩ l1 i1 ∧
      match_buy_iter l1 i1 = .exit ∧ s'.trades = l1.trades ∧ s'.asks = l1.asks ∧
      s'.ts_counter = l1.ts_counter ∧
      ((i1.quantity > 0 ∧ s'.bids = l1.bids.add_order i1 ∧
          s'.order_index = index_assign l1.order_index id i1.price
            ((levels_at i1.price (l1.bids.add_order i1).levels).length - 1)) ∨
       (¬ i1.quantity > 0 ∧ s'.bids = l1.bids ∧ s'.order_index = l1.order_index)) := by
  unfold LimitOrderBook.add_limit_order at h
  dsimp only at h
  split at h
  · cases h
  · rename_i l1 i1 hm
    obtain ⟨hit, hex⟩ := match_buy_loop_iterates _ _ _ _ hm
    refine ⟨l1, i1, hit, hex, ?_⟩
    split at h
    · rename_i hq
      cases h
      exact ⟨rfl, rfl, rfl, Or.inl ⟨hq, rfl, rfl⟩⟩
    · rename_i hq
      cases h
      exact ⟨rfl, rfl, rfl, Or.inr ⟨hq, rfl, rfl⟩⟩

theorem add_limit_order_sell_some {s s' : LimitOrderBook} {id : Int} {price : ℚ} {q : Int}
    (h : s.add_limit_order id Side.SELL price q = some s') :
    ∃ l1 i1, SellIterates { s with ts_counter := s.ts_counter + 1 }
        ⟨id, Side.SELL, price, q, s.ts_counter⟩ l1 i1 ∧
      match_sell_iter l1 i1 = .exit ∧ s'.trades = l1.trades ∧ s'.bids = l1.bids ∧
      s'.ts_counter = l1.ts_counter ∧
      ((i1.quantity > 0 ∧ s'.asks = l1.asks.add_order i1 ∧
          s'.order_index = index_assign l1.order_index id i1.price
            ((levels_at i1.price (l1.asks.add_order i1).levels).length - 1)) ∨
       (¬ i1.quantity > 0 ∧ s'.asks = l1.asks ∧ s'.order_index = l1.order_index)) := by
  unfold LimitOrderBook.add_limit_order at h
  dsimp only at h
  split at h
  · cases h
  · rename_i l1 i1 hm
    obtain ⟨hit, hex⟩ := match_sell_loop_iterates _ _ _ _ hm
    refine ⟨l1, i1, hit, hex, ?_⟩
    split at h
    · rename_i hq
      cases h
      exact ⟨rfl, rfl, rfl, Or.inl ⟨hq, rfl, rfl⟩⟩
    · rename_i hq
      cases h
      exact ⟨rfl, rfl, rfl, Or.inr ⟨hq, rfl, rfl⟩⟩

theorem add_market_order_buy_some {s s' : LimitOrderBook} {id : Int} {q : Int}
    (h : s.add_market_order id Side.BUY q = some s') :
    ∃ i1, BuyIterates { s with ts_counter := s.ts_counter + 1 }
        ⟨id, Side.BUY, DBL_MAX, q, s.ts_counter⟩ s' i1 ∧ match_buy_iter s' i1 = .exit := by
  unfold LimitOrderBook.add_market_order at h
  simp only [if_true] at h
  cases hm : LimitOrderBook.match_buy { s with ts_counter := s.ts_counter + 1 }
      ⟨id, Side.BUY, DBL_MAX, q, s.ts_counter⟩ with
  | none => rw [hm] at h; cases h
  | some r =>
    rw [hm] at h
    simp only [Option.map_some', Option.some.injEq] at h
    subst h
    exact ⟨r.2, match_buy_loop_iterates _ _ _ _ hm⟩

theorem add_market_order_sell_some {s s' : LimitOrderBook} {id : Int} {q : Int}
    (h : s.add_market_order id Side.SELL q = some s') :
    ∃ i1, SellIterates { s with ts_counter := s.ts_counter + 1 }
        ⟨id, Side.SELL, 0, q, s.ts_counter⟩ s' i1 ∧ match_sell_iter s' i1 = .exit := by
  unfold LimitOrderBook.add_market_order at h
  simp only [reduceCtorEq, if_false] at h
  cases hm : LimitOrderBook.match_sell { s with ts_counter := s.ts_counter + 1 }
      ⟨id, Side.SELL, 0, q, s.ts_counter⟩ with
  | none => rw [hm] at h; cases h
  | some r =>
    rw [hm] at h
    simp only [Option.map_some', Option.some.injEq] at h
    subst h
    exact ⟨r.2, match_sell_loop_iterates _ _ _ _ hm⟩

theorem sideWF_nonempty {b : Bool} {side : Side} {ts : Int} {l : Levels}
    (h : SideWF b side ts l) : ∀ pv ∈ l, pv.2 ≠ [] := fun pv hpv => (h.2 pv hpv).1

theorem wfat_bump {ts : Int} {s : LimitOrderBook} (c : Int) (h : WFat ts s) :
    WFat ts { s with ts_counter := c } :=
  ⟨h.bids_flag, h.asks_flag, h.bids_wf, h.asks_wf, h.trades_pos⟩

/-- On a well-formed book `add_limit_order` returns. -/
theorem add_limit_order_total {s : LimitOrderBook} (hw : WF s) (id : Int) (side : Side)
    (price : ℚ) (q : Int) : ∃ s', s.add_limit_order id side price q = some s' := by
  unfold LimitOrderBook.add_limit_order
  dsimp only
  cases side with
  | BUY =>
    obtain ⟨r, hr⟩ := match_buy_loop_fuel { s with ts_counter := s.ts_counter + 1 }
      ⟨id, Side.BUY, price, q, s.ts_counter⟩ (sideWF_nonempty hw.asks_wf)
    simp only [hr]
    split <;> exact ⟨_, rfl⟩
  | SELL =>
    obtain ⟨r, hr⟩ := match_sell_loop_fuel { s with ts_counter := s.ts_counter + 1 }
      ⟨id, Side.SELL, price, q, s.ts_counter⟩ (sideWF_nonempty hw.bids_wf)
    simp only [hr]
    split <;> exact ⟨_, rfl⟩

/-- On a well-formed book `add_market_order` returns. -/
theorem add_market_order_total {s : LimitOrderBook} (hw : WF s) (id : Int) (side : Side)
    (q : Int) : ∃ s', s.add_market_order id side q = some s' := by
  unfold LimitOrderBook.add_market_order
  dsimp only
  cases side with
  | BUY =>
    obtain ⟨r, hr⟩ := match_buy_loop_fuel { s with ts_counter := s.ts_counter + 1 }
      ⟨id, Side.BUY, DBL_MAX, q, s.ts_counter⟩ (sideWF_nonempty hw.asks_wf)
    simp only [if_true, hr]
    exact ⟨_, rfl⟩
  | SELL =>
    obtain ⟨r, hr⟩ := match_sell_loop_fuel { s with ts_counter := s.ts_counter + 1 }
      ⟨id, Side.SELL, 0, q, s.ts_counter⟩ (sideWF_nonempty hw.bids_wf)
    simp only [reduceCtorEq, if_false, hr]
    exact ⟨_, rfl⟩

theorem add_limit_order_wf {s s' : LimitOrderBook} {id : Int} {side : Side} {price : ℚ}
    {q : Int} (hw : WF s) (h : s.add_limit_order id side price q = some s') : WF s' := by
  cases side with
  | BUY =>
    obtain ⟨l1, i1, hit, _, htr, has, hts, hcase⟩ := add_limit_order_buy_some h
    have hw1 : WFat s.ts_counter l1 := buyIterates_wf hit (wfat_bump _ hw)
    obtain ⟨hb, hc, _, _, hsd, hpr, htm⟩ := buyIterates_frame hit
    unfold WF
    rw [hts, hc]
    rcases hcase with ⟨hq, hbid, _⟩ | ⟨_, hbid, _⟩
    · refine ⟨by rw [hbid]; exact hw1.bids_flag, by rw [has]; exact hw1.asks_flag, ?_,
        by rw [has]; exact sideWF_mono (by simp) hw1.asks_wf, by rw [htr]; exact hw1.trades_pos⟩
      rw [hbid]
      show SideWF true Side.BUY (s.ts_counter + 1) (levels_modify l1.bids.is_bid _ _ _)
      rw [hw1.bids_flag]
      exact sideWF_add_order hw1.bids_wf i1 hq hsd htm
    · exact ⟨by rw [hbid]; exact hw1.bids_flag, by rw [has]; exact hw1.asks_flag,
        by rw [hbid]; exact sideWF_mono (by simp) hw1.bids_wf,
        by rw [has]; exact sideWF_mono (by simp) hw1.asks_wf, by rw [htr]; exact hw1.trades_pos⟩
  | SELL =>
    obtain ⟨l1, i1, hit, _, htr, has, hts, hcase⟩ := add_limit_order_sell_some h
    have hw1 : WFat s.ts_counter l1 := sellIterates_wf hit (wfat_bump _ hw)
    obtain ⟨hb, hc, _, _, hsd, hpr, htm⟩ := sellIterates_frame hit
    unfold WF
    rw [hts, hc]
    rcases hcase with ⟨hq, hbid, _⟩ | ⟨_, hbid, _⟩
    · refine ⟨by rw [has]; exact hw1.bids_flag, by rw [hbid]; exact hw1.asks_flag,
        by rw [has]; exact sideWF_mono (by simp) hw1.bids_wf, ?_,
        by rw [htr]; exact hw1.trades_pos⟩
      rw [hbid]
      show SideWF false Side.SELL (s.ts_counter + 1) (levels_modify l1.asks.is_bid _ _ _)
      rw [hw1.asks_flag]
      exact sideWF_add_order hw1.asks_wf i1 hq hsd htm
    · exact ⟨by rw [has]; exact hw1.bids_flag, by rw [hbid]; exact hw1.asks_flag,
        by rw [has]; exact sideWF_mono (by simp) hw1.bids_wf,
        by rw [hbid]; exact sideWF_mono (by simp) hw1.asks_wf, by rw [htr]; exact hw1.trades_pos⟩

theorem add_market_order_wf {s s' : LimitOrderBook} {id : Int} {side : Side} {q : Int}
    (hw : WF s) (h : s.add_market_order id side q = some s') : WF s' := by
  cases side with
  | BUY =>
    obtain ⟨i1, hit, _⟩ := add_market_order_buy_some h
    have hw1 : WFat s.ts_counter s' := buyIterates_wf hit (wfat_bump _ hw)
    obtain ⟨_, hc, _⟩ := buyIterates_frame hit
    unfold WF
    rw [hc]
    exact ⟨hw1.bids_flag, hw1.asks_flag, sideWF_mono (by simp) hw1.bids_wf,
      sideWF_mono (by simp) hw1.asks_wf, hw1.trades_pos⟩
  | SELL =>
    obtain ⟨i1, hit, _⟩ := add_market_order_sell_some h
    have hw1 : WFat s.ts_counter s' := sellIterates_wf hit (wfat_bump _ hw)
    obtain ⟨_, hc, _⟩ := sellIterates_frame hit
    unfold WF
    rw [hc]
    exact ⟨hw1.bids_flag, hw1.asks_flag, sideWF_mono (by simp) hw1.bids_wf,
      sideWF_mono (by simp) hw1.asks_wf, hw1.trades_pos⟩

theorem step_wf {s s' : LimitOrderBook} {op : Op} (hw : WF s) (h : step s op = some s') :
    WF s' := by
  cases op with
  | limit id side price q => exact add_limit_order_wf hw h
  | market id side q => exact add_market_order_wf hw h
  | cancel id =>
    simp only [step] at h
    cases hc : s.cancel_order id with
    | none => rw [hc] at h; cases h
    | some r =>
      rw [hc] at h
      simp only [Option.map_some', Option.some.injEq] at h
      subst h
      exact cancel_order_wf hw hc

theorem run_cons_some {s s' : LimitOrderBook} {op : Op} {ops : List Op}
    (h : run s (op :: ops) = some s') : ∃ s1, step s op = some s1 ∧ run s1 ops = some s' := by
  simp only [run] at h
  split at h
  · cases h
  · rename_i s1 hs; exact ⟨s1, hs, h⟩

theorem run_wf : ∀ (ops : List Op) (s s' : LimitOrderBook), WF s → run s ops = some s' →
    WF s' := by
  intro ops
  induction ops with
  | nil => intro s s' hw h; simp only [run, Option.some.injEq] at h; subst h; exact hw
  | cons op ops ih =>
    intro s s' hw h
    obtain ⟨s1, h1, h2⟩ := run_cons_some h
    exact ih s1 s' (step_wf hw h1) h2

theorem wf_empty : WF LimitOrderBook.empty :=
  ⟨rfl, rfl, ⟨List.Pairwise.nil, by intro pv h; cases h⟩,
    ⟨List.Pairwise.nil, by intro pv h; cases h⟩, by intro t h; cases h⟩

/-- Every reachable state is well-formed. -/
theorem reachable_wf {s : LimitOrderBook} (h : Reachable s) : WF s := by
  obtain ⟨ops, h⟩ := h
  exact run_wf ops _ _ wf_empty h

/-- A run that is defined ends in the state `getD` reads off. -/
theorem run_getD {s : LimitOrderBook} {ops : List Op} (h : (run s ops).isSome = true) :
    run s ops = some ((run s ops).getD LimitOrderBook.empty) := by
  cases hr : run s ops with
  | none => rw [hr] at h; cases h
  | some v => rfl

/-! ## Accounting of one run of a loop -/

theorem trades_qty_append (a b : List Trade) : trades_qty (a ++ b) = trades_qty a + trades_qty b := by
  simp [trades_qty]

theorem levels_qty_cons (p : ℚ) (v : List Order) (rest : Levels) :
    levels_qty ((p, v) :: rest) = orders_qty v + levels_qty rest := by
  simp [levels_qty]

theorem orders_qty_cons (o : Order) (v : List Order) :
    orders_qty (o :: v) = o.quantity + orders_qty v := by
  simp [orders_qty]

theorem levels_qty_pop (p : ℚ) (r : Order) (tail : List Order) (rest : Levels) :
    levels_qty (if tail = [] then rest else (p, tail) :: rest) + r.quantity
      = levels_qty ((p, r :: tail) :: rest) := by
  split
  · rename_i h; subst h
    simp [levels_qty_cons, orders_qty]
    omega
  · simp [levels_qty_cons, orders_qty_cons]
    omega

theorem mem_pop {p : ℚ} {tail : List Order} {rest : Levels} {pv : ℚ × List Order}
    (h : pv ∈ (if tail = [] then rest else (p, tail) :: rest)) :
    pv ∈ rest ∨ pv.1 = p := by
  split at h
  · exact Or.inl h
  · rcases List.mem_cons.mp h with h | h
    · subst h; exact Or.inr rfl
    · exact Or.inl h

/-- The trades a run of the loop of `match_buy` appends: their prices do not exceed the
incoming price, their quantities add up to what the incoming order lost and to what the asks
lost; the index only loses entries and no ask level appears. -/
theorem buyIterates_account {lob l1 : LimitOrderBook} {inc i1 : Order}
    (hit : BuyIterates lob inc l1 i1) :
    ∃ new, l1.trades = lob.trades ++ new ∧
      (∀ t ∈ new, t.price ≤ inc.price ∧ levels_count t.price lob.asks.levels = true) ∧
      trades_qty new = inc.quantity - i1.quantity ∧
      levels_qty l1.asks.levels + trades_qty new = levels_qty lob.asks.levels ∧
      (0 ≤ inc.quantity → 0 ≤ i1.quantity) ∧
      (∀ k, l1.order_index k = none ∨ l1.order_index k = lob.order_index k) ∧
      (∀ pv ∈ l1.asks.levels, ∃ pv0 ∈ lob.asks.levels, pv0.1 = pv.1) := by
  induction hit with
  | start =>
    exact ⟨[], by simp, by simp, by simp [trades_qty], by simp [trades_qty], fun h => h,
      fun _ => Or.inr rfl, fun pv h => ⟨pv, h, rfl⟩⟩
  | @body l1 i1 l2 i2 hprev hb ih =>
    obtain ⟨new, h1, h2, h3, h4, h5, h6, h7⟩ := ih
    obtain ⟨p, resting, tail, rest, hq, hl, hp, hi, htr, _, _, _, hcase⟩ :=
      match_buy_iter_next hb
    have hpr : i1.price = inc.price := (buyIterates_frame hprev).2.2.2.2.2.1
    refine ⟨new ++ [⟨i1.id, resting.id, p, min i1.quantity resting.quantity⟩], ?_, ?_, ?_, ?_,
      ?_, ?_, ?_⟩
    · rw [htr, h1, List.append_assoc]
    · intro t ht
      rcases List.mem_append.mp ht with ht | ht
      · exact h2 t ht
      · simp at ht; subst ht
        refine ⟨?_, ?_⟩
        · show p ≤ inc.price
          rw [← hpr]; exact not_lt.mp hp
        · exact levels_count_subset h7 p
            ((levels_count_iff p _).mpr ⟨_, by rw [hl]; exact List.mem_cons_self _ _, rfl⟩)
    · rw [trades_qty_append, h3, hi]
      simp [trades_qty]
      omega
    · rw [trades_qty_append, ← h4, hl]
      rcases hcase with ⟨hz, _, hl'⟩ | ⟨_, _, hl'⟩
      · rw [hl', ← levels_qty_pop p resting tail rest]
        simp [trades_qty]
        omega
      · rw [hl']
        simp [trades_qty, levels_qty_cons, orders_qty_cons]
        omega
    · intro _
      rw [hi]
      show 0 ≤ i1.quantity - min i1.quantity resting.quantity
      omega
    · intro k
      rcases hcase with ⟨_, hidx, _⟩ | ⟨_, hidx, _⟩
      · rw [hidx]
        unfold index_erase
        split
        · exact Or.inl rfl
        · exact h6 k
      · rw [hidx]; exact h6 k
    · intro pv hpv
      have : pv ∈ l1.asks.levels ∨ pv.1 = p := by
        rcases hcase with ⟨_, _, hl'⟩ | ⟨_, _, hl'⟩
        · rw [hl'] at hpv
          rcases mem_pop hpv with h | h
          · left; rw [hl]; exact List.mem_cons_of_mem _ h
          · exact Or.inr h
        · rw [hl'] at hpv
          rcases List.mem_cons.mp hpv with h | h
          · subst h; exact Or.inr rfl
          · left; rw [hl]; exact List.mem_cons_of_mem _ h
      rcases this with h | h
      · exact h7 pv h
      · obtain ⟨pv0, hm, he⟩ := h7 (p, resting :: tail) (by rw [hl]; exact List.mem_cons_self _ _)
        exact ⟨pv0, hm, by rw [he, h]⟩

/-- The trades a run of the loop of `match_sell` appends: their prices are not below the
incoming price, their quantities add up to what the incoming order lost and to what the bids
lost; the index only loses entries and no bid level appears. -/
theorem sellIterates_account {lob l1 : LimitOrderBook} {inc i1 : Order}
    (hit : SellIterates lob inc l1 i1) :
    ∃ new, l1.trades = lob.trades ++ new ∧
      (∀ t ∈ new, t.price ≥ inc.price ∧ levels_count t.price lob.bids.levels = true) ∧
      trades_qty new = inc.quantity - i1.quantity ∧
      levels_qty l1.bids.levels + trades_qty new = levels_qty lob.bids.levels ∧
      (0 ≤ inc.quantity → 0 ≤ i1.quantity) ∧
      (∀ k, l1.order_index k = none ∨ l1.order_index k = lob.order_index k) ∧
      (∀ pv ∈ l1.bids.levels, ∃ pv0 ∈ lob.bids.levels, pv0.1 = pv.1) := by
  induction hit with
  | start =>
    exact ⟨[], by simp, by simp, by simp [trades_qty], by simp [trades_qty], fun h => h,
      fun _ => Or.inr rfl, fun pv h => ⟨pv, h, rfl⟩⟩
  | @body l1 i1 l2 i2 hprev hb ih =>
    obtain ⟨new, h1, h2, h3, h4, h5, h6, h7⟩ := ih
    obtain ⟨p, resting, tail, rest, hq, hl, hp, hi, htr, _, _, _, hcase⟩ :=
      match_sell_iter_next hb
    have hpr : i1.price = inc.price := (sellIterates_frame hprev).2.2.2.2.2.1
    refine ⟨new ++ [⟨resting.id, i1.id, p, min i1.quantity resting.quantity⟩], ?_, ?_, ?_, ?_,
      ?_, ?_, ?_⟩
    · rw [htr, h1, List.append_assoc]
    · intro t ht
      rcases List.mem_append.mp ht with ht | ht
      · exact h2 t ht
      · simp at ht; subst ht
        refine ⟨?_, ?_⟩
        · show p ≥ inc.price
          rw [← hpr]; exact not_lt.mp hp
        · exact levels_count_subset h7 p
            ((levels_count_iff p _).mpr ⟨_, by rw [hl]; exact List.mem_cons_self _ _, rfl⟩)
    · rw [trades_qty_append, h3, hi]
      simp [trades_qty]
      omega
    · rw [trades_qty_append, ← h4, hl]
      rcases hcase with ⟨hz, _, hl'⟩ | ⟨_, _, hl'⟩
      · rw [hl', ← levels_qty_pop p resting tail rest]
        simp [trades_qty]
        omega
      · rw [hl']
        simp [trades_qty, levels_qty_cons, orders_qty_cons]
        omega
    · intro _
      rw [hi]
      show 0 ≤ i1.quantity - min i1.quantity resting.quantity
      omega
    · intro k
      rcases hcase with ⟨_, hidx, _⟩ | ⟨_, hidx, _⟩
      · rw [hidx]
        unfold index_erase
        split
        · exact Or.inl rfl
        · exact h6 k
      · rw [hidx]; exact h6 k
    · intro pv hpv
      have : pv ∈ l1.bids.levels ∨ pv.1 = p := by
        rcases hcase with ⟨_, _, hl'⟩ | ⟨_, _, hl'⟩
        · rw [hl'] at hpv
          rcases mem_pop hpv with h | h
          · left; rw [hl]; exact List.mem_cons_of_mem _ h
          · exact Or.inr h
        · rw [hl'] at hpv
          rcases List.mem_cons.mp hpv with h | h
          · subst h; exact Or.inr rfl
          · left; rw [hl]; exact List.mem_cons_of_mem _ h
      rcases this with h | h
      · exact h7 pv h
      · obtain ⟨pv0, hm, he⟩ := h7 (p, resting :: tail) (by rw [hl]; exact List.mem_cons_self _ _)
        exact ⟨pv0, hm, by rw [he, h]⟩

/-- On a well-formed non-empty side the front order of the first level is first in
comparator order of price, and earliest among the orders at its price. -/
theorem sideWF_front_priority {b : Bool} {side : Side} {ts : Int} {l : Levels}
    (h : SideWF b side ts l) (hne : l ≠ []) :
    ∃ p o tl rest, l = (p, o :: tl) :: rest ∧
      ∀ pv ∈ l, ∀ o' ∈ pv.2,
        (o'.price = o.price ∨ comparator b o.price o'.price = true) ∧
        (o'.price = o.price → o' = o ∨ o.timestamp < o'.timestamp) := by
  cases l with
  | nil => exact absurd rfl hne
  | cons hd rest =>
    obtain ⟨p, v⟩ := hd
    obtain ⟨hv, hok, hts⟩ := h.2 (p, v) (List.mem_cons_self _ _)
    cases v with
    | nil => exact absurd rfl hv
    | cons o tl =>
      refine ⟨p, o, tl, rest, rfl, ?_⟩
      have hop : o.price = p := (hok o (List.mem_cons_self _ _)).2.1
      have hsorted := List.pairwise_cons.mp h.1
      have hhead : ∀ o' ∈ o :: tl, o' = o ∨ o.timestamp < o'.timestamp := by
        intro o' ho'
        rcases List.mem_cons.mp ho' with ho' | ho'
        · exact Or.inl ho'
        · exact Or.inr ((List.pairwise_cons.mp hts).1 o' ho')
      intro pv hpv o' ho'
      rcases List.mem_cons.mp hpv with hpv | hpv
      · subst hpv
        have : o'.price = p := (hok o' ho').2.1
        exact ⟨Or.inl (this.trans hop.symm), fun _ => hhead o' ho'⟩
      · have hk : o'.price = pv.1 := ((h.2 pv (List.mem_cons_of_mem _ hpv)).2.1 o' ho').2.1
        have hc : comparator b p pv.1 = true := hsorted.1 pv hpv
        refine ⟨Or.inr (by rw [hop, hk]; exact hc), ?_⟩
        intro he
        exfalso
        rw [hk, hop] at he
        rw [he] at hc
        cases b <;> simp [comparator] at hc

/-! ## Resting the remainder -/

theorem levels_at_modify (b : Bool) (price : ℚ) (f : List Order → List Order) :
    ∀ l : Levels, ∃ v, levels_at price (levels_modify b price f l) = f v := by
  intro l
  induction l with
  | nil => exact ⟨[], by simp [levels_modify, levels_at]⟩
  | cons hd rest ih =>
    obtain ⟨p, v⟩ := hd
    unfold levels_modify
    split
    · rename_i hp
      exact ⟨v, by simp [levels_at, hp]⟩
    · rename_i hp
      split
      · exact ⟨[], by simp [levels_at]⟩
      · obtain ⟨w, hw⟩ := ih
        exact ⟨w, by rw [levels_at, if_neg hp]; exact hw⟩

/-! ## Quantity accounting of the operations -/

theorem match_buy_iter_exit {lob : LimitOrderBook} {inc : Order}
    (h : match_buy_iter lob inc = .exit) :
    ¬ inc.quantity > 0 ∨ lob.asks.levels = [] ∨
      ∃ p v rest, lob.asks.levels = (p, v) :: rest ∧ p > inc.price := by
  unfold match_buy_iter at h
  split at h
  · split at h
    · rename_i hl; exact Or.inr (Or.inl hl)
    · rename_i p lvl rest hl
      split at h
      · rename_i hp; exact Or.inr (Or.inr ⟨p, lvl, rest, hl, hp⟩)
      · split at h
        · cases h
        · dsimp only at h
          split at h <;> cases h
  · rename_i hq; exact Or.inl hq

theorem match_sell_iter_exit {lob : LimitOrderBook} {inc : Order}
    (h : match_sell_iter lob inc = .exit) :
    ¬ inc.quantity > 0 ∨ lob.bids.levels = [] ∨
      ∃ p v rest, lob.bids.levels = (p, v) :: rest ∧ p < inc.price := by
  unfold match_sell_iter at h
  split at h
  · split at h
    · rename_i hl; exact Or.inr (Or.inl hl)
    · rename_i p lvl rest hl
      split at h
      · rename_i hp; exact Or.inr (Or.inr ⟨p, lvl, rest, hl, hp⟩)
      · split at h
        · cases h
        · dsimp only at h
          split at h <;> cases h
  · rename_i hq; exact Or.inl hq

theorem levels_qty_nonneg {b : Bool} {side : Side} {ts : Int} :
    ∀ {l : Levels}, SideWF b side ts l → 0 ≤ levels_qty l := by
  intro l
  induction l with
  | nil => intro _; simp [levels_qty]
  | cons hd rest ih =>
    obtain ⟨p, v⟩ := hd
    intro h
    have hrest := ih (sideWF_sublist (List.sublist_cons_self _ _) h)
    have hv : ∀ o ∈ v, o.quantity > 0 := fun o ho => ((h.2 _ (List.mem_cons_self _ _)).2.1 o ho).1
    have : 0 ≤ orders_qty v := by
      clear h ih hrest
      induction v with
      | nil => simp [orders_qty]
      | cons o tl ih2 =>
        rw [orders_qty_cons]
        have := hv o (List.mem_cons_self _ _)
        have := ih2 (fun o' ho' => hv o' (List.mem_cons_of_mem _ ho'))
        omega
    rw [levels_qty_cons]
    omega

theorem keysPositive_step {s s' : LimitOrderBook} {op : Op} (hop : op.is_positive_limit = true)
    (hk : KeysPositive s) (h : step s op = some s') : KeysPositive s' := by
  cases op with
  | market id side q => simp [Op.is_positive_limit] at hop
  | cancel id => simp [Op.is_positive_limit] at hop
  | limit id side price q =>
    simp only [Op.is_positive_limit, Bool.and_eq_true, decide_eq_true_eq] at hop
    obtain ⟨⟨hp0, hp1⟩, _⟩ := hop
    simp only [step] at h
    cases side with
    | BUY =>
      obtain ⟨l1, i1, hit, _, _, has, _, hcase⟩ := add_limit_order_buy_some h
      obtain ⟨_, _, _, _, _, _, _, h7⟩ := buyIterates_account hit
      obtain ⟨hb, _, _, _, _, hpr, _⟩ := buyIterates_frame hit
      dsimp only at h7 hb hpr
      have hasks : ∀ pv ∈ s'.asks.levels, 0 < pv.1 ∧ pv.1 ≤ DBL_MAX := by
        intro pv hpv
        rw [has] at hpv
        obtain ⟨pv0, hm, he⟩ := h7 pv hpv
        rw [← he]; exact hk.2 pv0 hm
      refine ⟨?_, hasks⟩
      rcases hcase with ⟨_, hbid, _⟩ | ⟨_, hbid, _⟩
      · intro pv hpv
        rw [hbid] at hpv
        rcases mem_levels_modify hpv with hpv | ⟨hpv, _⟩
        · rw [hb] at hpv; exact hk.1 pv hpv
        · rw [hpv, hpr]; exact ⟨hp0, hp1⟩
      · intro pv hpv
        rw [hbid, hb] at hpv; exact hk.1 pv hpv
    | SELL =>
      obtain ⟨l1, i1, hit, _, _, has, _, hcase⟩ := add_limit_order_sell_some h
      obtain ⟨_, _, _, _, _, _, _, h7⟩ := sellIterates_account hit
      obtain ⟨hb, _, _, _, _, hpr, _⟩ := sellIterates_frame hit
      dsimp only at h7 hb hpr
      have hbids : ∀ pv ∈ s'.bids.levels, 0 < pv.1 ∧ pv.1 ≤ DBL_MAX := by
        intro pv hpv
        rw [has] at hpv
        obtain ⟨pv0, hm, he⟩ := h7 pv hpv
        rw [← he]; exact hk.1 pv0 hm
      refine ⟨hbids, ?_⟩
      rcases hcase with ⟨_, hbid, _⟩ | ⟨_, hbid, _⟩
      · intro pv hpv
        rw [hbid] at hpv
        rcases mem_levels_modify hpv with hpv | ⟨hpv, _⟩
        · rw [hb] at hpv; exact hk.2 pv hpv
        · rw [hpv, hpr]; exact ⟨hp0, hp1⟩
      · intro pv hpv
        rw [hbid, hb] at hpv; exact hk.2 pv hpv

theorem keysPositive_run : ∀ (ops : List Op) (s s' : LimitOrderBook),
    (∀ op ∈ ops, op.is_positive_limit = true) → KeysPositive s → run s ops = some s' →
    KeysPositive s' := by
  intro ops
  induction ops with
  | nil => intro s s' _ hk h; simp only [run, Option.some.injEq] at h; subst h; exact hk
  | cons op ops ih =>
    intro s s' hall hk h
    obtain ⟨s1, h1, h2⟩ := run_cons_some h
    exact ih s1 s' (fun op' h' => hall op' (List.mem_cons_of_mem _ h'))
      (keysPositive_step (hall op (List.mem_cons_self _ _)) hk h1) h2

theorem keysPositive_empty : KeysPositive LimitOrderBook.empty := by
  constructor <;> intro pv h <;> cases h

/-! ## Cancelling twice -/

theorem cancel_order_absent {s : LimitOrderBook} {id : Int} (h : s.order_index id = none) :
    s.cancel_order id = some (s, CancelResult.NotFound) := by
  unfold LimitOrderBook.cancel_order
  rw [h]

/-- Whenever a first `cancel_order(id)` on an indexed id is defined, it reports a
cancellation and a second call reports that the id is not found and changes nothing. -/
theorem cancel_order_twice {s s1 : LimitOrderBook} {id : Int} {res : CancelResult}
    (hidx : s.order_index id ≠ none) (h : s.cancel_order id = some (s1, res)) :
    res = CancelResult.Cancelled ∧ s1.cancel_order id = some (s1, CancelResult.NotFound) := by
  rcases cancel_order_some h with ⟨h0, _, _⟩ | ⟨_, _, _, hres, _, _, hi, _⟩
  · exact absurd h0 hidx
  · refine ⟨hres, cancel_order_absent ?_⟩
    rw [hi]
    simp [index_erase]

/-! ## Price order of the trades of one submission -/

theorem sorted_head_asks {side : Side} {ts : Int} {p : ℚ} {v : List Order} {rest : Levels}
    (h : SideWF false side ts ((p, v) :: rest)) : ∀ pa ∈ (p, v) :: rest, p ≤ pa.1 := by
  intro pa hpa
  rcases List.mem_cons.mp hpa with hpa | hpa
  · subst hpa; exact le_refl _
  · have := (List.pairwise_cons.mp h.1).1 pa hpa
    simp [comparator] at this
    exact le_of_lt this

theorem sorted_head_bids {side : Side} {ts : Int} {p : ℚ} {v : List Order} {rest : Levels}
    (h : SideWF true side ts ((p, v) :: rest)) : ∀ pb ∈ (p, v) :: rest, pb.1 ≤ p := by
  intro pb hpb
  rcases List.mem_cons.mp hpb with hpb | hpb
  · subst hpb; exact le_refl _
  · have := (List.pairwise_cons.mp h.1).1 pb hpb
    simp [comparator] at this
    exact le_of_lt this

/-- The trades a run of the loop of `match_buy` appends are in non-decreasing price order,
none above a key still present in the asks. -/
theorem buyIterates_prices {ts : Int} {lob l1 : LimitOrderBook} {inc i1 : Order}
    (hit : BuyIterates lob inc l1 i1) (hw : WFat ts lob) :
    ∃ new, l1.trades = lob.trades ++ new ∧
      new.Pairwise (fun a b => a.price ≤ b.price) ∧
      ∀ t ∈ new, ∀ pv ∈ l1.asks.levels, t.price ≤ pv.1 := by
  induction hit with
  | start => exact ⟨[], by simp, List.Pairwise.nil, fun t ht => nomatch ht⟩
  | @body l1 i1 l2 i2 hprev hb ih =>
    obtain ⟨new, h1, h2, h3⟩ := ih
    have hw1 := (buyIterates_wf hprev hw).asks_wf
    obtain ⟨p, resting, tail, rest, _, hl, _, _, htr, _, _, _, hcase⟩ := match_buy_iter_next hb
    rw [hl] at hw1 h3
    have hhead := sorted_head_asks hw1
    have hkeys : ∀ pv ∈ l2.asks.levels, pv ∈ (p, resting :: tail) :: rest ∨ pv.1 = p := by
      intro pv hpv
      rcases hcase with ⟨_, _, hl'⟩ | ⟨_, _, hl'⟩
      · rw [hl'] at hpv
        rcases mem_pop hpv with h | h
        · exact Or.inl (List.mem_cons_of_mem _ h)
        · exact Or.inr h
      · rw [hl'] at hpv
        rcases List.mem_cons.mp hpv with h | h
        · subst h; exact Or.inr rfl
        · exact Or.inl (List.mem_cons_of_mem _ h)
    refine ⟨new ++ [⟨i1.id, resting.id, p, min i1.quantity resting.quantity⟩], ?_, ?_, ?_⟩
    · rw [htr, h1, List.append_assoc]
    · refine List.pairwise_append.mpr ⟨h2, List.pairwise_singleton _ _, ?_⟩
      intro a ha b hb'
      simp at hb'
      subst hb'
      exact h3 a ha (p, resting :: tail) (List.mem_cons_self _ _)
    · intro t ht pv hpv
      rcases List.mem_append.mp ht with ht | ht
      · rcases hkeys pv hpv with h | h
        · exact h3 t ht pv h
        · rw [h]; exact h3 t ht (p, resting :: tail) (List.mem_cons_self _ _)
      · simp at ht
        subst ht
        rcases hkeys pv hpv with h | h
        · exact hhead pv h
        · exact le_of_eq h.symm

/-- The trades a run of the loop of `match_sell` appends are in non-increasing price order,
none below a key still present in the bids. -/
theorem sellIterates_prices {ts : Int} {lob l1 : LimitOrderBook} {inc i1 : Order}
    (hit : SellIterates lob inc l1 i1) (hw : WFat ts lob) :
    ∃ new, l1.trades = lob.trades ++ new ∧
      new.Pairwise (fun a b => a.price ≥ b.price) ∧
      ∀ t ∈ new, ∀ pv ∈ l1.bids.levels, t.price ≥ pv.1 := by
  induction hit with
  | start => exact ⟨[], by simp, List.Pairwise.nil, fun t ht => nomatch ht⟩
  | @body l1 i1 l2 i2 hprev hb ih =>
    obtain ⟨new, h1, h2, h3⟩ := ih
    have hw1 := (sellIterates_wf hprev hw).bids_wf
    obtain ⟨p, resting, tail, rest, _, hl, _, _, htr, _, _, _, hcase⟩ :=
      match_sell_iter_next hb
    rw [hl] at hw1 h3
    have hhead := sorted_head_bids hw1
    have hkeys : ∀ pv ∈ l2.bids.levels, pv ∈ (p, resting :: tail) :: rest ∨ pv.1 = p := by
      intro pv hpv
      rcases hcase with ⟨_, _, hl'⟩ | ⟨_, _, hl'⟩
      · rw [hl'] at hpv
        rcases mem_pop hpv with h | h
        · exact Or.inl (List.mem_cons_of_mem _ h)
        · exact Or.inr h
      · rw [hl'] at hpv
        rcases List.mem_cons.mp hpv with h | h
        · subst h; exact Or.inr rfl
        · exact Or.inl (List.mem_cons_of_mem _ h)
    refine ⟨new ++ [⟨resting.id, i1.id, p, min i1.quantity resting.quantity⟩], ?_, ?_, ?_⟩
    · rw [htr, h1, List.append_assoc]
    · refine List.pairwise_append.mpr ⟨h2, List.pairwise_singleton _ _, ?_⟩
      intro a ha b hb'
      simp at hb'
      subst hb'
      exact h3 a ha (p, resting :: tail) (List.mem_cons_self _ _)
    · intro t ht pv hpv
      rcases List.mem_append.mp ht with ht | ht
      · rcases hkeys pv hpv with h | h
        · exact h3 t ht pv h
        · rw [h]; exact h3 t ht (p, resting :: tail) (List.mem_cons_self _ _)
      · simp at ht
        subst ht
        rcases hkeys pv hpv with h | h
        · exact hhead pv h
        · exact le_of_eq h

/-! ## The book stays uncrossed -/

/-- A sell that leaves the loop of `match_sell` with a remainder is priced above every bid
left. -/
theorem match_sell_exit_above {ts : Int} {l1 : LimitOrderBook} {i1 : Order}
    (hw : WFat ts l1) (hex : match_sell_iter l1 i1 = .exit) (hq : i1.quantity > 0) :
    ∀ pb ∈ l1.bids.levels, pb.1 < i1.price := by
  intro pb hpb
  rcases match_sell_iter_exit hex with h | h | ⟨p, v, rest, hl, hp⟩
  · exact absurd hq h
  · rw [h] at hpb; cases hpb
  · have hs := hw.bids_wf
    rw [hl] at hs hpb
    exact lt_of_le_of_lt (sorted_head_bids hs pb hpb) hp

theorem levels_orders_pop (p : ℚ) (tail : List Order) (rest : Levels) :
    levels_orders (if tail = [] then rest else (p, tail) :: rest) = tail ++ levels_orders rest := by
  split
  · rename_i h; subst h; rfl
  · rfl

/-- The resting orders of the asks after a run of the loop of `match_buy` are the orders
before it without a prefix, the first one left possibly reduced, and then the incoming order
is exhausted. -/
theorem buyIterates_front_orders {lob l1 : LimitOrderBook} {inc i1 : Order}
    (hit : BuyIterates lob inc l1 i1) :
    (∃ k, levels_orders l1.asks.levels = (levels_orders lob.asks.levels).drop k) ∨
    (∃ k o rest q', (levels_orders lob.asks.levels).drop k = o :: rest ∧
      levels_orders l1.asks.levels = { o with quantity := q' } :: rest ∧
      0 < q' ∧ q' < o.quantity ∧ i1.quantity = 0) := by
  induction hit with
  | start => exact Or.inl ⟨0, rfl⟩
  | @body l1 i1 l2 i2 _ hb ih =>
    obtain ⟨p, resting, tail, rest, hq, hl, _, hi, _, _, _, _, hcase⟩ := match_buy_iter_next hb
    rcases ih with ⟨k, hk⟩ | ⟨_, _, _, _, _, _, _, _, h0⟩
    · rw [hl] at hk
      have hk' : (levels_orders lob.asks.levels).drop k
          = resting :: (tail ++ levels_orders rest) := hk.symm
      rcases hcase with ⟨_, _, hl'⟩ | ⟨hz, _, hl'⟩
      · left
        refine ⟨k + 1, ?_⟩
        rw [hl', levels_orders_pop, ← List.drop_drop, hk']
        rfl
      · right
        refine ⟨k, resting, tail ++ levels_orders rest,
          resting.quantity - min i1.quantity resting.quantity, hk', ?_, ?_, ?_, ?_⟩
        · rw [hl']; rfl
        · omega
        · omega
        · rw [hi]; show i1.quantity - _ = 0; omega
    · omega

/-- The resting orders of the bids after a run of the loop of `match_sell` are the orders
before it without a prefix, the first one left possibly reduced, and then the incoming order
is exhausted. -/
theorem sellIterates_front_orders {lob l1 : LimitOrderBook} {inc i1 : Order}
    (hit : SellIterates lob inc l1 i1) :
    (∃ k, levels_orders l1.bids.levels = (levels_orders lob.bids.levels).drop k) ∨
    (∃ k o rest q', (levels_orders lob.bids.levels).drop k = o :: rest ∧
      levels_orders l1.bids.levels = { o with quantity := q' } :: rest ∧
      0 < q' ∧ q' < o.quantity ∧ i1.quantity = 0) := by
  induction hit with
  | start => exact Or.inl ⟨0, rfl⟩
  | @body l1 i1 l2 i2 _ hb ih =>
    obtain ⟨p, resting, tail, rest, hq, hl, _, hi, _, _, _, _, hcase⟩ :=
      match_sell_iter_next hb
    rcases ih with ⟨k, hk⟩ | ⟨_, _, _, _, _, _, _, _, h0⟩
    · rw [hl] at hk
      have hk' : (levels_orders lob.bids.levels).drop k
          = resting :: (tail ++ levels_orders rest) := hk.symm
      rcases hcase with ⟨_, _, hl'⟩ | ⟨hz, _, hl'⟩
      · left
        refine ⟨k + 1, ?_⟩
        rw [hl', levels_orders_pop, ← List.drop_drop, hk']
        rfl
      · right
        refine ⟨k, resting, tail ++ levels_orders rest,
          resting.quantity - min i1.quantity resting.quantity, hk', ?_, ?_, ?_, ?_⟩
        · rw [hl']; rfl
        · omega
        · omega
        · rw [hi]; show i1.quantity - _ = 0; omega
    · omega

/-! ## Number of iterations of a loop -/

theorem eraseIdx_concat_last (v : List Order) (o : Order) :
    (v ++ [o]).eraseIdx ((v ++ [o]).length - 1) = v := by
  simp [List.eraseIdx_append_of_length_le]

/-- Pushing an order to the back of its level and erasing at the last position of that
level gives the levels back. -/
theorem levels_push_cancel (b : Bool) (p : ℚ) (o : Order) : ∀ (l : Levels),
    (∀ pv ∈ l, pv.2 ≠ []) →
    levels_at p (levels_modify b p (fun v => v ++ [o]) l) ≠ [] ∧
    (if (levels_at p (levels_modify b p (fun v => v ++ [o]) l)).eraseIdx
          ((levels_at p (levels_modify b p (fun v => v ++ [o]) l)).length - 1) = []
     then levels_erase p (levels_modify b p (fun v => v ++ [o]) l)
     else levels_modify b p
        (fun _ => (levels_at p (levels_modify b p (fun v => v ++ [o]) l)).eraseIdx
          ((levels_at p (levels_modify b p (fun v => v ++ [o]) l)).length - 1))
        (levels_modify b p (fun v => v ++ [o]) l)) = l := by
  intro l
  induction l with
  | nil =>
    intro _
    simp [levels_modify, levels_at, levels_erase]
  | cons hd rest ih =>
    obtain ⟨k, v⟩ := hd
    intro hne
    have hv : v ≠ [] := hne (k, v) (List.mem_cons_self _ _)
    have hrest := ih (fun pv hpv => hne pv (List.mem_cons_of_mem _ hpv))
    by_cases hk : k = p
    · subst hk
      have e1 : levels_modify b k (fun v => v ++ [o]) ((k, v) :: rest)
          = (k, v ++ [o]) :: rest := by simp [levels_modify]
      rw [e1]
      have e2 : levels_at k ((k, v ++ [o]) :: rest) = v ++ [o] := by simp [levels_at]
      rw [e2, eraseIdx_concat_last, if_neg hv]
      exact ⟨by simp, by simp [levels_modify]⟩
    · by_cases hc : comparator b p k = true
      · have e1 : levels_modify b p (fun v => v ++ [o]) ((k, v) :: rest)
            = (p, [o]) :: (k, v) :: rest := by simp [levels_modify, hk, hc]
        rw [e1]
        have e2 : levels_at p ((p, [o]) :: (k, v) :: rest) = [o] := by simp [levels_at]
        rw [e2]
        exact ⟨by simp, by simp [levels_erase]⟩
      · have e1 : levels_modify b p (fun v => v ++ [o]) ((k, v) :: rest)
            = (k, v) :: levels_modify b p (fun v => v ++ [o]) rest := by
          simp [levels_modify, hk, hc]
        rw [e1]
        have e2 : levels_at p ((k, v) :: levels_modify b p (fun v => v ++ [o]) rest)
            = levels_at p (levels_modify b p (fun v => v ++ [o]) rest) := by
          simp [levels_at, hk]
        rw [e2]
        refine ⟨hrest.1, ?_⟩
        have e3 : ∀ (f : List Order → List Order) (r : Levels),
            levels_modify b p f ((k, v) :: r) = (k, v) :: levels_modify b p f r := by
          intro f r; simp [levels_modify, hk, hc]
        have e4 : ∀ (r : Levels), levels_erase p ((k, v) :: r) = (k, v) :: levels_erase p r := by
          intro r; simp [levels_erase, hk]
        rw [e3, e4]
        have h2 := hrest.2
        split
        · rename_i hz
          rw [if_pos hz] at h2
          rw [h2]
        · rename_i hz
          rw [if_neg hz] at h2
          rw [h2]

theorem mem_levels_orders {o : Order} : ∀ {l : Levels},
    o ∈ levels_orders l ↔ ∃ pv ∈ l, o ∈ pv.2 := by
  intro l
  induction l with
  | nil => simp [levels_orders]
  | cons hd rest ih =>
    obtain ⟨k, v⟩ := hd
    simp only [levels_orders, List.mem_append, ih, List.mem_cons, exists_eq_or_imp]

theorem mem_orders_push {b : Bool} {p : ℚ} {n o : Order} {l : Levels}
    (h : o ∈ levels_orders (levels_modify b p (fun v => v ++ [n]) l)) :
    o ∈ levels_orders l ∨ o = n := by
  obtain ⟨pv, hpv, ho⟩ := mem_levels_orders.mp h
  rcases mem_levels_modify hpv with h1 | ⟨_, h2⟩
  · exact Or.inl (mem_levels_orders.mpr ⟨pv, h1, ho⟩)
  · rcases h2 with ⟨v, hv, e⟩ | e
    · rw [e] at ho
      rcases List.mem_append.mp ho with ho | ho
      · exact Or.inl (mem_levels_orders.mpr ⟨_, hv, ho⟩)
      · simp at ho; exact Or.inr ho
    · rw [e] at ho
      simp at ho; exact Or.inr ho

theorem sideWF_orders_ts {b : Bool} {side : Side} {ts : Int} {l : Levels}
    (h : SideWF b side ts l) : ∀ o ∈ levels_orders l, o.timestamp < ts := by
  intro o ho
  obtain ⟨pv, hpv, ho⟩ := mem_levels_orders.mp ho
  exact ((h.2 pv hpv).2.1 o ho).2.2.2

theorem cancel_order_bids {s : LimitOrderBook} {id : Int} {price : ℚ} {it : Nat}
    (hi : s.order_index id = some (price, it))
    (hc : levels_count price s.bids.levels = true)
    (hlt : it < (levels_at price s.bids.levels).length) :
    ∃ s', s.cancel_order id = some (s', CancelResult.Cancelled) ∧ s'.asks = s.asks ∧
      s'.bids.levels =
        (if (levels_at price s.bids.levels).eraseIdx it = [] then
           levels_erase price s.bids.levels
         else levels_modify s.bids.is_bid price
           (fun _ => (levels_at price s.bids.levels).eraseIdx it) s.bids.levels) ∧
      s'.order_index = index_erase s.order_index id := by
  unfold LimitOrderBook.cancel_order
  rw [hi]
  simp only [hc, if_true, hlt]
  exact ⟨_, rfl, rfl, rfl, rfl⟩

theorem cancel_order_asks {s : LimitOrderBook} {id : Int} {price : ℚ} {it : Nat}
    (hi : s.order_index id = some (price, it))
    (hc : levels_count price s.bids.levels = false)
    (hlt : it < (levels_at price s.asks.levels).length) :
    ∃ s', s.cancel_order id = some (s', CancelResult.Cancelled) ∧ s'.bids = s.bids ∧
      s'.asks.levels =
        (if (levels_at price s.asks.levels).eraseIdx it = [] then
           levels_erase price s.asks.levels
         else levels_modify s.asks.is_bid price
           (fun _ => (levels_at price s.asks.levels).eraseIdx it) s.asks.levels) ∧
      s'.order_index = index_erase s.order_index id := by
  unfold LimitOrderBook.cancel_order
  rw [hi]
  simp only [hc, Bool.false_eq_true, if_false, hlt, if_true]
  exact ⟨_, rfl, rfl, rfl, rfl⟩

theorem levels_at_count {p : ℚ} : ∀ {l : Levels}, levels_at p l ≠ [] →
    levels_count p l = true := by
  intro l h
  exact (levels_count_iff p l).mpr ⟨_, levels_at_mem h, rfl⟩

theorem run_single {s s1 : LimitOrderBook} {op : Op} (h : run s [op] = some s1) :
    step s op = some s1 := by
  obtain ⟨s', h1, h2⟩ := run_cons_some h
  simp only [run, Option.some.injEq] at h2
  rw [← h2]; exact h1

theorem run_limit {s s1 : LimitOrderBook} {id : Int} {side : Side} {price : ℚ} {q : Int}
    (h : run s [Op.limit id side price q] = some s1) :
    s.add_limit_order id side price q = some s1 :=
  run_single h

/-! ## The claims -/

/-- C1: from a reachable state, at every evaluation of the loop of `match_buy` (`match_sell`)
started by a submission of a buy (sell) order, limit or market, the body appends exactly one
trade: its buy id is the id of the order of side BUY, its sell id the id of the order of side
SELL, its price is the resting order's price, which is the key of the best level of the
opposite side, its quantity is the minimum of the two remaining quantities; hence the price
is not the incoming price when the two prices differ. -/
theorem match_step_trade_record (s : LimitOrderBook) (hs : Reachable s) (id : Int) (price : ℚ)
    (q : Int) (lob lob' : LimitOrderBook) (cur cur' : Order) :
    (BuyIterates { s with ts_counter := s.ts_counter + 1 }
        ⟨id, Side.BUY, price, q, s.ts_counter⟩ lob cur →
      match_buy_iter lob cur = .next lob' cur' →
      ∃ p resting tail rest t, lob.asks.levels = (p, resting :: tail) :: rest ∧
        lob'.trades = lob.trades ++ [t] ∧
        cur.side = Side.BUY ∧ resting.side = Side.SELL ∧ cur.id = id ∧ cur.price = price ∧
        t.buy_id = cur.id ∧ t.sell_id = resting.id ∧
        t.price = resting.price ∧ resting.price = p ∧
        t.quantity = min cur.quantity resting.quantity ∧
        (resting.price ≠ cur.price → t.price ≠ cur.price)) ∧
    (SellIterates { s with ts_counter := s.ts_counter + 1 }
        ⟨id, Side.SELL, price, q, s.ts_counter⟩ lob cur →
      match_sell_iter lob cur = .next lob' cur' →
      ∃ p resting tail rest t, lob.bids.levels = (p, resting :: tail) :: rest ∧
        lob'.trades = lob.trades ++ [t] ∧
        cur.side = Side.SELL ∧ resting.side = Side.BUY ∧ cur.id = id ∧ cur.price = price ∧
        t.buy_id = resting.id ∧ t.sell_id = cur.id ∧
        t.price = resting.price ∧ resting.price = p ∧
        t.quantity = min cur.quantity resting.quantity ∧
        (resting.price ≠ cur.price → t.price ≠ cur.price)) := by
  have hw := reachable_wf hs
  constructor
  · intro hit hn
    have hw1 : WFat s.ts_counter lob := buyIterates_wf hit (wfat_bump _ hw)
    obtain ⟨_, _, _, hid, hsd, hpr, _⟩ := buyIterates_frame hit
    obtain ⟨p, resting, tail, rest, _, hl, _, _, htr, _⟩ := match_buy_iter_next hn
    have hr : OrderOK Side.SELL p s.ts_counter resting := by
      have := hw1.asks_wf
      rw [hl] at this
      exact sideWF_head this
    refine ⟨p, resting, tail, rest, ⟨cur.id, resting.id, p, min cur.quantity resting.quantity⟩,
      hl, htr, hsd, hr.2.2.1, hid, hpr, rfl, rfl, hr.2.1.symm, hr.2.1, rfl, ?_⟩
    intro hne
    show p ≠ cur.price
    rw [← hr.2.1]; exact hne
  · intro hit hn
    have hw1 : WFat s.ts_counter lob := sellIterates_wf hit (wfat_bump _ hw)
    obtain ⟨_, _, _, hid, hsd, hpr, _⟩ := sellIterates_frame hit
    obtain ⟨p, resting, tail, rest, _, hl, _, _, htr, _⟩ := match_sell_iter_next hn
    have hr : OrderOK Side.BUY p s.ts_counter resting := by
      have := hw1.bids_wf
      rw [hl] at this
      exact sideWF_head this
    refine ⟨p, resting, tail, rest, ⟨resting.id, cur.id, p, min cur.quantity resting.quantity⟩,
      hl, htr, hsd, hr.2.2.1, hid, hpr, rfl, rfl, hr.2.1.symm, hr.2.1, rfl, ?_⟩
    intro hne
    show p ≠ cur.price
    rw [← hr.2.1]; exact hne

/-- Witness of C1: after `S 1 10 5`, the first evaluation of the loop for `B 2 11 3` trades
with order 1 at its price 10, not at the incoming price 11. -/
theorem match_step_trade_record_witness :
    ∃ s lob' cur', run LimitOrderBook.empty [Op.limit 1 Side.SELL 10 5] = some s ∧
      match_buy_iter { s with ts_counter := s.ts_counter + 1 }
        ⟨2, Side.BUY, 11, 3, s.ts_counter⟩ = .next lob' cur' ∧
      lob'.trades = [⟨2, 1, 10, 3⟩] ∧
      ∃ p resting tail rest t,
        s.asks.levels = (p, resting :: tail) :: rest ∧ lob'.trades = s.trades ++ [t] ∧
        t.buy_id = 2 ∧ t.sell_id = resting.id ∧ t.price = resting.price ∧ resting.price = p ∧
        t.quantity = min 3 resting.quantity ∧ (resting.price ≠ 11 → t.price ≠ 11) := by
  refine ⟨_, _, _, run_getD (by decide), rfl, by decide, ?_⟩
  obtain ⟨p, resting, tail, rest, t, h1, h2, _, _, _, _, h3, h4, h5, h6, h7, h8⟩ :=
    (match_step_trade_record _ ⟨[Op.limit 1 Side.SELL 10 5], run_getD (by decide)⟩
      2 11 3 _ _ _ _).1 .start rfl
  exact ⟨p, resting, tail, rest, t, h1, h2, h3, h4, h5, h6, h7, h8⟩

/-- C2: from a reachable state `add_limit_order` returns; every trade a buy at limit `P`
appends has a price at most `P`, which is the key of an ask level of the state, and every
trade a sell at limit `P` appends has a price at least `P`, which is the key of a bid level
of the state: no resting ask above `P` and no resting bid below `P` is matched. -/
theorem limit_order_trades_within_limit (s : LimitOrderBook) (hs : Reachable s) (id : Int)
    (P : ℚ) (q : Int) :
    (∃ s' new, s.add_limit_order id Side.BUY P q = some s' ∧ s'.trades = s.trades ++ new ∧
        ∀ t ∈ new, t.price ≤ P ∧ levels_count t.price s.asks.levels = true) ∧
    (∃ s' new, s.add_limit_order id Side.SELL P q = some s' ∧ s'.trades = s.trades ++ new ∧
        ∀ t ∈ new, t.price ≥ P ∧ levels_count t.price s.bids.levels = true) := by
  have hw := reachable_wf hs
  constructor
  · obtain ⟨s', h⟩ := add_limit_order_total hw id Side.BUY P q
    obtain ⟨l1, i1, hit, _, htr, _⟩ := add_limit_order_buy_some h
    obtain ⟨new, h1, h2, _⟩ := buyIterates_account hit
    exact ⟨s', new, h, htr.trans h1, h2⟩
  · obtain ⟨s', h⟩ := add_limit_order_total hw id Side.SELL P q
    obtain ⟨l1, i1, hit, _, htr, _⟩ := add_limit_order_sell_some h
    obtain ⟨new, h1, h2, _⟩ := sellIterates_account hit
    exact ⟨s', new, h, htr.trans h1, h2⟩

/-- Witness of C2: after `S 1 10 5` and `S 2 12 5`, a buy at limit 11 and a sell at limit 11
both return and respect the limit. -/
theorem limit_order_trades_within_limit_witness :
    ∃ s, run LimitOrderBook.empty [Op.limit 1 Side.SELL 10 5, Op.limit 2 Side.SELL 12 5] = some s ∧
      (∃ s' new, s.add_limit_order 3 Side.BUY 11 7 = some s' ∧ s'.trades = s.trades ++ new ∧
        ∀ t ∈ new, t.price ≤ 11 ∧ levels_count t.price s.asks.levels = true) ∧
      (∃ s' new, s.add_limit_order 3 Side.SELL 11 7 = some s' ∧ s'.trades = s.trades ++ new ∧
        ∀ t ∈ new, t.price ≥ 11 ∧ levels_count t.price s.bids.levels = true) :=
  ⟨_, rfl, limit_order_trades_within_limit _
    ⟨[Op.limit 1 Side.SELL 10 5, Op.limit 2 Side.SELL 12 5], rfl⟩ 3 11 7⟩

/-- C3: in every state reached from the empty engine by limit-order submissions, each
non-empty side has a front order of its first level, the one the next match would consume;
no resting order of that side has a better price (higher for bids, lower for asks), and every
other resting order at its price arrived strictly later. -/
theorem price_time_priority (ops : List Op) (s : LimitOrderBook)
    (_hops : ∀ op ∈ ops, op.is_limit = true) (h : run LimitOrderBook.empty ops = some s) :
    (s.bids.levels ≠ [] →
      ∃ p o tl rest, s.bids.levels = (p, o :: tl) :: rest ∧
        ∀ pv ∈ s.bids.levels, ∀ o' ∈ pv.2,
          o'.price ≤ o.price ∧ (o'.price = o.price → o' = o ∨ o.timestamp < o'.timestamp)) ∧
    (s.asks.levels ≠ [] →
      ∃ p o tl rest, s.asks.levels = (p, o :: tl) :: rest ∧
        ∀ pv ∈ s.asks.levels, ∀ o' ∈ pv.2,
          o.price ≤ o'.price ∧ (o'.price = o.price → o' = o ∨ o.timestamp < o'.timestamp)) := by
  have hw : WF s := reachable_wf ⟨ops, h⟩
  constructor
  · intro hne
    obtain ⟨p, o, tl, rest, hl, hall⟩ := sideWF_front_priority hw.bids_wf hne
    refine ⟨p, o, tl, rest, hl, fun pv hpv o' ho' => ⟨?_, (hall pv hpv o' ho').2⟩⟩
    rcases (hall pv hpv o' ho').1 with h1 | h1
    · exact le_of_eq h1
    · simp [comparator] at h1; exact le_of_lt h1
  · intro hne
    obtain ⟨p, o, tl, rest, hl, hall⟩ := sideWF_front_priority hw.asks_wf hne
    refine ⟨p, o, tl, rest, hl, fun pv hpv o' ho' => ⟨?_, (hall pv hpv o' ho').2⟩⟩
    rcases (hall pv hpv o' ho').1 with h1 | h1
    · exact le_of_eq h1.symm
    · simp [comparator] at h1; exact le_of_lt h1

/-- Witness of C3: three bids, two of them at the best price 11; order 2 is consumed next. -/
theorem price_time_priority_witness :
    ∃ s, run LimitOrderBook.empty
        [Op.limit 1 Side.BUY 10 1, Op.limit 2 Side.BUY 11 1, Op.limit 3 Side.BUY 11 1,
         Op.limit 4 Side.SELL 12 1] = some s ∧
      s.bids.levels = [(11, [⟨2, Side.BUY, 11, 1, 1⟩, ⟨3, Side.BUY, 11, 1, 2⟩]),
                       (10, [⟨1, Side.BUY, 10, 1, 0⟩])] ∧
      ∃ p o tl rest, s.bids.levels = (p, o :: tl) :: rest ∧
        ∀ pv ∈ s.bids.levels, ∀ o' ∈ pv.2,
          o'.price ≤ o.price ∧ (o'.price = o.price → o' = o ∨ o.timestamp < o'.timestamp) :=
  ⟨_, run_getD (by decide), by decide,
    (price_time_priority
      [Op.limit 1 Side.BUY 10 1, Op.limit 2 Side.BUY 11 1, Op.limit 3 Side.BUY 11 1,
       Op.limit 4 Side.SELL 12 1] _ (by decide) (run_getD (by decide))).1 (by decide)⟩

/-- C6: from a reachable state `add_limit_order` with a positive quantity `q` returns; with
`t` the total quantity of the trades it appends, `t ≤ q`; if `t < q` the order, with remaining
quantity `q - t`, is the last element of the level at `price` on its own side and `id` is
indexed with `price` and the position of that last element; if `t = q` its own side is
unchanged and every index entry present afterwards was already there unchanged. -/
theorem limit_order_remainder (s : LimitOrderBook) (hs : Reachable s) (id : Int) (side : Side)
    (price : ℚ) (q : Int) (hq : q > 0) :
    ∃ s' new, s.add_limit_order id side price q = some s' ∧ s'.trades = s.trades ++ new ∧
      trades_qty new ≤ q ∧
      (trades_qty new < q →
        (levels_at price (s'.own_side side).levels).getLast?
            = some ⟨id, side, price, q - trades_qty new, s.ts_counter⟩ ∧
        s'.order_index id
            = some (price, (levels_at price (s'.own_side side).levels).length - 1)) ∧
      (trades_qty new = q →
        s'.own_side side = s.own_side side ∧
        ∀ k, s'.order_index k = none ∨ s'.order_index k = s.order_index k) := by
  have hw := reachable_wf hs
  obtain ⟨s', h⟩ := add_limit_order_total hw id side price q
  cases side with
  | BUY =>
    obtain ⟨l1, i1, hit, _, htr, _, _, hcase⟩ := add_limit_order_buy_some h
    obtain ⟨new, h1, _, h3, _, h5, h6, _⟩ := buyIterates_account hit
    obtain ⟨hb, _, _, hid, hsd, hpr, htm⟩ := buyIterates_frame hit
    dsimp only at h1 h3 h5 h6 hb hid hsd hpr htm
    have hi0 : 0 ≤ i1.quantity := h5 (le_of_lt hq)
    have hi1 : i1 = ⟨id, Side.BUY, price, q - trades_qty new, s.ts_counter⟩ := by
      cases i1
      simp only at hid hsd hpr htm h3
      simp only [Order.mk.injEq]
      exact ⟨hid, hsd, hpr, by omega, htm⟩
    refine ⟨s', new, h, htr.trans h1, by omega, ?_, ?_⟩
    · intro hlt
      rcases hcase with ⟨_, hbid, hidx⟩ | ⟨hn, _, _⟩
      · obtain ⟨v, hv⟩ := levels_at_modify l1.bids.is_bid i1.price (fun v => v ++ [i1])
          l1.bids.levels
        have hv2 : levels_at i1.price (l1.bids.add_order i1).levels = v ++ [i1] := hv
        have hlev : levels_at price (s'.own_side Side.BUY).levels = v ++ [i1] := by
          show levels_at price s'.bids.levels = _
          rw [hbid, ← hpr]; exact hv2
        constructor
        · rw [hlev, List.getLast?_concat, ← hi1]
        · rw [hidx, hlev]
          simp only [index_assign, if_true]
          rw [hv2, hpr]
      · omega
    · intro heq
      rcases hcase with ⟨hp, _, _⟩ | ⟨_, hbid, hidx⟩
      · omega
      · exact ⟨hbid.trans hb, fun k => by rw [hidx]; exact h6 k⟩
  | SELL =>
    obtain ⟨l1, i1, hit, _, htr, _, _, hcase⟩ := add_limit_order_sell_some h
    obtain ⟨new, h1, _, h3, _, h5, h6, _⟩ := sellIterates_account hit
    obtain ⟨hb, _, _, hid, hsd, hpr, htm⟩ := sellIterates_frame hit
    dsimp only at h1 h3 h5 h6 hb hid hsd hpr htm
    have hi0 : 0 ≤ i1.quantity := h5 (le_of_lt hq)
    have hi1 : i1 = ⟨id, Side.SELL, price, q - trades_qty new, s.ts_counter⟩ := by
      cases i1
      simp only at hid hsd hpr htm h3
      simp only [Order.mk.injEq]
      exact ⟨hid, hsd, hpr, by omega, htm⟩
    refine ⟨s', new, h, htr.trans h1, by omega, ?_, ?_⟩
    · intro hlt
      rcases hcase with ⟨_, hbid, hidx⟩ | ⟨hn, _, _⟩
      · obtain ⟨v, hv⟩ := levels_at_modify l1.asks.is_bid i1.price (fun v => v ++ [i1])
          l1.asks.levels
        have hv2 : levels_at i1.price (l1.asks.add_order i1).levels = v ++ [i1] := hv
        have hlev : levels_at price (s'.own_side Side.SELL).levels = v ++ [i1] := by
          show levels_at price s'.asks.levels = _
          rw [hbid, ← hpr]; exact hv2
        constructor
        · rw [hlev, List.getLast?_concat, ← hi1]
        · rw [hidx, hlev]
          simp only [index_assign, if_true]
          rw [hv2, hpr]
      · omega
    · intro heq
      rcases hcase with ⟨hp, _, _⟩ | ⟨_, hbid, hidx⟩
      · omega
      · exact ⟨hbid.trans hb, fun k => by rw [hidx]; exact h6 k⟩

/-- Witness of C6: after `B 1 10 5`, `S 2 10 8` trades 5 and rests with 3. -/
theorem limit_order_remainder_witness :
    ∃ s, run LimitOrderBook.empty [Op.limit 1 Side.BUY 10 5] = some s ∧
      ∃ s' new, s.add_limit_order 2 Side.SELL 10 8 = some s' ∧ s'.trades = s.trades ++ new ∧
        trades_qty new ≤ 8 ∧
        (trades_qty new < 8 →
          (levels_at 10 (s'.own_side Side.SELL).levels).getLast?
              = some ⟨2, Side.SELL, 10, 8 - trades_qty new, s.ts_counter⟩ ∧
          s'.order_index 2
              = some (10, (levels_at 10 (s'.own_side Side.SELL).levels).length - 1)) ∧
        (trades_qty new = 8 →
          s'.own_side Side.SELL = s.own_side Side.SELL ∧
          ∀ k, s'.order_index k = none ∨ s'.order_index k = s.order_index k) :=
  ⟨_, run_getD (by decide),
    limit_order_remainder _ ⟨_, run_getD (by decide)⟩ 2 Side.SELL 10 8 (by decide)⟩

/-- C7, counterexample: a limit buy at the price `DBL_MAX` rests, so that a level keyed by
the sentinel price of a market buy is present in the bids before and after a market buy. -/
theorem market_order_sentinel_counterexample :
    ∃ s s', run LimitOrderBook.empty [Op.limit 1 Side.BUY DBL_MAX 5] = some s ∧
      s.add_market_order 2 Side.BUY 1 = some s' ∧
      levels_count DBL_MAX s'.bids.levels = true :=
  ⟨_, _, run_getD (by decide), rfl, by decide⟩

/-- C7, amended: whenever `add_market_order` returns, the side of the market order's own
side is unchanged, every key of `order_index` afterwards was a key before, and every level
key present on a side afterwards was a key of that side before, so that the call inserts no
level, keyed by the sentinel price or otherwise, and the unfilled remainder is dropped; the
call returns on every book whose opposite side has no empty level. -/
theorem market_order_frame (s : LimitOrderBook) (id : Int) (side : Side) (q : Int) :
    (∀ s', s.add_market_order id side q = some s' →
      s'.own_side side = s.own_side side ∧
      (∀ k, s'.order_index k ≠ none → s.order_index k ≠ none) ∧
      (∀ p, levels_count p s'.bids.levels = true → levels_count p s.bids.levels = true) ∧
      (∀ p, levels_count p s'.asks.levels = true → levels_count p s.asks.levels = true)) ∧
    ((∀ pv ∈ (s.opposite_side side).levels, pv.2 ≠ []) →
      ∃ s', s.add_market_order id side q = some s') := by
  constructor
  · intro s' h
    cases side with
    | BUY =>
      obtain ⟨i1, hit, _⟩ := add_market_order_buy_some h
      obtain ⟨_, _, _, _, _, _, h6, h7⟩ := buyIterates_account hit
      obtain ⟨hb, _⟩ := buyIterates_frame hit
      dsimp only at h6 h7 hb
      refine ⟨hb, ?_, ?_, levels_count_subset h7⟩
      · intro k hk
        rcases h6 k with h0 | h0
        · exact absurd h0 hk
        · rw [← h0]; exact hk
      · intro p hp; rw [hb] at hp; exact hp
    | SELL =>
      obtain ⟨i1, hit, _⟩ := add_market_order_sell_some h
      obtain ⟨_, _, _, _, _, _, h6, h7⟩ := sellIterates_account hit
      obtain ⟨hb, _⟩ := sellIterates_frame hit
      dsimp only at h6 h7 hb
      refine ⟨hb, ?_, levels_count_subset h7, ?_⟩
      · intro k hk
        rcases h6 k with h0 | h0
        · exact absurd h0 hk
        · rw [← h0]; exact hk
      · intro p hp; rw [hb] at hp; exact hp
  · intro hne
    unfold LimitOrderBook.add_market_order
    dsimp only
    cases side with
    | BUY =>
      obtain ⟨r, hr⟩ := match_buy_loop_fuel { s with ts_counter := s.ts_counter + 1 }
        ⟨id, Side.BUY, DBL_MAX, q, s.ts_counter⟩ hne
      simp only [if_true, hr]
      exact ⟨_, rfl⟩
    | SELL =>
      obtain ⟨r, hr⟩ := match_sell_loop_fuel { s with ts_counter := s.ts_counter + 1 }
        ⟨id, Side.SELL, 0, q, s.ts_counter⟩ hne
      simp only [reduceCtorEq, if_false, hr]
      exact ⟨_, rfl⟩

/-- Witness of C7 amended: after `S 3 9 4` a market buy of 2 trades 2 at price 9, leaves the
bids and the index keys as they were and adds no level. -/
theorem market_order_frame_witness :
    ∃ s s', run LimitOrderBook.empty [Op.limit 3 Side.SELL 9 4] = some s ∧
      s.add_market_order 4 Side.BUY 2 = some s' ∧
      s'.trades = [⟨4, 3, 9, 2⟩] ∧
      s'.asks.levels = [(9, [⟨3, Side.SELL, 9, 2, 0⟩])] ∧
      s'.own_side Side.BUY = s.own_side Side.BUY ∧
      (∀ k, s'.order_index k ≠ none → s.order_index k ≠ none) ∧
      (∀ p, levels_count p s'.bids.levels = true → levels_count p s.bids.levels = true) ∧
      (∀ p, levels_count p s'.asks.levels = true → levels_count p s.asks.levels = true) :=
  ⟨_, _, run_getD (by decide), rfl, by decide, by decide,
    (market_order_frame _ 4 Side.BUY 2).1 _ rfl⟩

/-- C8: in a state reached with limit orders only, each with a positive price (a finite
`double`) and a positive quantity, `add_market_order` with a positive quantity `q` returns and
the trades it appends have total quantity `min q r`, with `r` the quantity resting on the
opposite side before the call; afterwards the market order is filled completely or the
opposite side is empty. -/
theorem market_order_fill (ops : List Op) (s : LimitOrderBook)
    (hops : ∀ op ∈ ops, op.is_positive_limit = true)
    (hrun : run LimitOrderBook.empty ops = some s) (id : Int) (side : Side) (q : Int)
    (hq : 0 < q) :
    ∃ s' new, s.add_market_order id side q = some s' ∧ s'.trades = s.trades ++ new ∧
      trades_qty new = min q (levels_qty (s.opposite_side side).levels) ∧
      (trades_qty new = q ∨ (s'.opposite_side side).levels = []) := by
  have hw : WF s := reachable_wf ⟨ops, hrun⟩
  have hk : KeysPositive s := keysPositive_run ops _ _ hops keysPositive_empty hrun
  obtain ⟨s', h⟩ := add_market_order_total hw id side q
  cases side with
  | BUY =>
    obtain ⟨i1, hit, hex⟩ := add_market_order_buy_some h
    obtain ⟨new, h1, _, h3, h4, h5, _, h7⟩ := buyIterates_account hit
    obtain ⟨_, _, _, _, _, hpr, _⟩ := buyIterates_frame hit
    have hw' : WFat s.ts_counter s' := buyIterates_wf hit (wfat_bump _ hw)
    have hnn := levels_qty_nonneg hw'.asks_wf
    dsimp only at h1 h3 h4 h5 h7 hpr
    have hi0 := h5 (le_of_lt hq)
    refine ⟨s', new, h, h1, ?_⟩
    show trades_qty new = min q (levels_qty s.asks.levels) ∧
      (trades_qty new = q ∨ s'.asks.levels = [])
    rcases match_buy_iter_exit hex with hz | hl | ⟨p, v, rest, hl, hp⟩
    · exact ⟨by omega, Or.inl (by omega)⟩
    · have : levels_qty s'.asks.levels = 0 := by rw [hl]; simp [levels_qty]
      exact ⟨by omega, Or.inr hl⟩
    · exfalso
      obtain ⟨pv0, hm, he⟩ := h7 (p, v) (by rw [hl]; exact List.mem_cons_self _ _)
      have := (hk.2 pv0 hm).2
      rw [he] at this
      rw [hpr] at hp
      exact absurd hp (not_lt.mpr this)
  | SELL =>
    obtain ⟨i1, hit, hex⟩ := add_market_order_sell_some h
    obtain ⟨new, h1, _, h3, h4, h5, _, h7⟩ := sellIterates_account hit
    obtain ⟨_, _, _, _, _, hpr, _⟩ := sellIterates_frame hit
    have hw' : WFat s.ts_counter s' := sellIterates_wf hit (wfat_bump _ hw)
    have hnn := levels_qty_nonneg hw'.bids_wf
    dsimp only at h1 h3 h4 h5 h7 hpr
    have hi0 := h5 (le_of_lt hq)
    refine ⟨s', new, h, h1, ?_⟩
    show trades_qty new = min q (levels_qty s.bids.levels) ∧
      (trades_qty new = q ∨ s'.bids.levels = [])
    rcases match_sell_iter_exit hex with hz | hl | ⟨p, v, rest, hl, hp⟩
    · exact ⟨by omega, Or.inl (by omega)⟩
    · have : levels_qty s'.bids.levels = 0 := by rw [hl]; simp [levels_qty]
      exact ⟨by omega, Or.inr hl⟩
    · exfalso
      obtain ⟨pv0, hm, he⟩ := h7 (p, v) (by rw [hl]; exact List.mem_cons_self _ _)
      have := (hk.1 pv0 hm).1
      rw [he] at this
      rw [hpr] at hp
      exact absurd hp (not_lt.mpr (le_of_lt this))

/-- Witness of C8: two asks resting with 4 and 3; a market buy of 5 trades 5, a market buy of
9 would trade 7. -/
theorem market_order_fill_witness :
    ∃ s, run LimitOrderBook.empty [Op.limit 1 Side.SELL 10 4, Op.limit 2 Side.SELL 12 3] = some s ∧
      levels_qty (s.opposite_side Side.BUY).levels = 7 ∧
      ∃ s' new, s.add_market_order 3 Side.BUY 9 = some s' ∧ s'.trades = s.trades ++ new ∧
        trades_qty new = min 9 (levels_qty (s.opposite_side Side.BUY).levels) ∧
        (trades_qty new = 9 ∨ (s'.opposite_side Side.BUY).levels = []) :=
  ⟨_, run_getD (by decide), by decide,
    market_order_fill [Op.limit 1 Side.SELL 10 4, Op.limit 2 Side.SELL 12 3] _ (by decide)
      (run_getD (by decide)) 3 Side.BUY 9 (by decide)⟩

/-- C9, the code at a failing input: after `S 1`, `S 2`, `S 3`, `S 4` at price 10 and a buy
that fills order 1, the index still holds offset 2 for order 3, where order 4 now sits;
`cancel_order(3)` reports a cancellation, erases order 4 and leaves order 3 resting, with
the entry of order 4 left in the index. -/
theorem cancel_order_erases_other_order :
    ∃ s s', run LimitOrderBook.empty
        [Op.limit 1 Side.SELL 10 1, Op.limit 2 Side.SELL 10 1, Op.limit 3 Side.SELL 10 1,
         Op.limit 4 Side.SELL 10 1, Op.limit 5 Side.BUY 10 1] = some s ∧
      s.asks.levels = [(10, [⟨2, Side.SELL, 10, 1, 1⟩, ⟨3, Side.SELL, 10, 1, 2⟩,
                             ⟨4, Side.SELL, 10, 1, 3⟩])] ∧
      s.order_index 3 = some (10, 2) ∧
      run s [Op.cancel 3] = some s' ∧
      (s.cancel_order 3).map Prod.snd = some CancelResult.Cancelled ∧
      s'.asks.levels = [(10, [⟨2, Side.SELL, 10, 1, 1⟩, ⟨3, Side.SELL, 10, 1, 2⟩])] ∧
      s'.order_index 3 = none ∧ s'.order_index 4 = some (10, 3) :=
  ⟨_, _, run_getD (by decide), by decide, by decide, run_getD (by decide), by decide,
    by decide, by decide, by decide⟩

/-- C10, the code at a failing input: after `S 1` and `S 2` at price 10 and a buy that fills
order 1, order 2 is alone in its level while the index holds offset 1 for it; the first
`cancel_order(2)` erases through an offset outside the vector, which is undefined. -/
theorem cancel_order_past_the_end :
    ∃ s, run LimitOrderBook.empty
        [Op.limit 1 Side.SELL 10 1, Op.limit 2 Side.SELL 10 1, Op.limit 3 Side.BUY 10 1] = some s ∧
      s.asks.levels = [(10, [⟨2, Side.SELL, 10, 1, 1⟩])] ∧
      s.order_index 2 = some (10, 1) ∧
      s.cancel_order 2 = none :=
  ⟨_, run_getD (by decide), by decide, by decide, Option.isNone_iff_eq_none.mp (by decide)⟩

/-- C11: on every book, for every id that is not a key of `order_index`, `cancel_order`
reports that the id was not found and returns the book it was given: bids, asks,
`order_index`, trades and the timestamp counter are unchanged. -/
theorem cancel_unknown_id (s : LimitOrderBook) (id : Int) (h : s.order_index id = none) :
    s.cancel_order id = some (s, CancelResult.NotFound) ∧
    ∀ s' res, s.cancel_order id = some (s', res) →
      res = CancelResult.NotFound ∧ s'.bids = s.bids ∧ s'.asks = s.asks ∧
      s'.order_index = s.order_index ∧ s'.trades = s.trades ∧
      s'.ts_counter = s.ts_counter := by
  have h0 := cancel_order_absent h
  refine ⟨h0, ?_⟩
  intro s' res h1
  rw [h0] at h1
  simp only [Option.some.injEq, Prod.mk.injEq] at h1
  obtain ⟨e1, e2⟩ := h1
  subst e1 e2
  exact ⟨rfl, rfl, rfl, rfl, rfl, rfl⟩

/-- Witness of C11: after `S 1 10 5`, `B 2 10 5` (order 1 filled), `S 3 12 1`, `C 3` and a
market buy with id 4, none of the ids 1, 3, 4 and 7 is indexed; cancelling 7 changes
nothing. -/
theorem cancel_unknown_id_witness :
    ∃ s, run LimitOrderBook.empty
        [Op.limit 1 Side.SELL 10 5, Op.limit 2 Side.BUY 10 5, Op.limit 3 Side.SELL 12 1,
         Op.cancel 3, Op.limit 5 Side.SELL 11 2, Op.market 4 Side.BUY 1] = some s ∧
      s.order_index 1 = none ∧ s.order_index 3 = none ∧ s.order_index 4 = none ∧
      s.cancel_order 7 = some (s, CancelResult.NotFound) :=
  ⟨_, run_getD (by decide), by decide, by decide, by decide,
    (cancel_unknown_id _ 7 (by decide)).1⟩

/-- C12, the code at a failing input: after `B 1`, `B 2`, `B 3`, `B 4` at price 10, a sell
that fills order 1 and `C 3`, all with distinct ids, order 3 is resting and is no key of
`order_index`, while 4 is a key of `order_index` and no order with id 4 is resting. -/
theorem index_keys_differ_from_resting_ids :
    ∃ s, run LimitOrderBook.empty
        [Op.limit 1 Side.BUY 10 1, Op.limit 2 Side.BUY 10 1, Op.limit 3 Side.BUY 10 1,
         Op.limit 4 Side.BUY 10 1, Op.limit 5 Side.SELL 10 1, Op.cancel 3] = some s ∧
      s.bids.levels = [(10, [⟨2, Side.BUY, 10, 1, 1⟩, ⟨3, Side.BUY, 10, 1, 2⟩])] ∧
      s.asks.levels = [] ∧
      s.order_index 3 = none ∧ s.order_index 4 = some (10, 3) ∧
      (∃ o ∈ levels_orders s.bids.levels ++ levels_orders s.asks.levels, o.id = 3) ∧
      ¬ (∃ o ∈ levels_orders s.bids.levels ++ levels_orders s.asks.levels, o.id = 4) :=
  ⟨_, run_getD (by decide), by decide, by decide, by decide, by decide, by decide,
    by decide⟩

/-- C13: from a reachable state every submission, limit or market, returns, and the trades
it appends are on the tape in price-priority order: non-decreasing prices for an incoming
buy, non-increasing prices for an incoming sell. -/
theorem trades_best_price_first (s : LimitOrderBook) (hs : Reachable s) (id : Int)
    (price : ℚ) (q : Int) :
    (∃ s' new, s.add_limit_order id Side.BUY price q = some s' ∧ s'.trades = s.trades ++ new ∧
        new.Pairwise (fun a b => a.price ≤ b.price)) ∧
    (∃ s' new, s.add_limit_order id Side.SELL price q = some s' ∧ s'.trades = s.trades ++ new ∧
        new.Pairwise (fun a b => a.price ≥ b.price)) ∧
    (∃ s' new, s.add_market_order id Side.BUY q = some s' ∧ s'.trades = s.trades ++ new ∧
        new.Pairwise (fun a b => a.price ≤ b.price)) ∧
    (∃ s' new, s.add_market_order id Side.SELL q = some s' ∧ s'.trades = s.trades ++ new ∧
        new.Pairwise (fun a b => a.price ≥ b.price)) := by
  have hw := reachable_wf hs
  refine ⟨?_, ?_, ?_, ?_⟩
  · obtain ⟨s', h⟩ := add_limit_order_total hw id Side.BUY price q
    obtain ⟨l1, i1, hit, _, htr, _⟩ := add_limit_order_buy_some h
    obtain ⟨new, h1, h2, _⟩ := buyIterates_prices hit (wfat_bump _ hw)
    exact ⟨s', new, h, htr.trans h1, h2⟩
  · obtain ⟨s', h⟩ := add_limit_order_total hw id Side.SELL price q
    obtain ⟨l1, i1, hit, _, htr, _⟩ := add_limit_order_sell_some h
    obtain ⟨new, h1, h2, _⟩ := sellIterates_prices hit (wfat_bump _ hw)
    exact ⟨s', new, h, htr.trans h1, h2⟩
  · obtain ⟨s', h⟩ := add_market_order_total hw id Side.BUY q
    obtain ⟨i1, hit, _⟩ := add_market_order_buy_some h
    obtain ⟨new, h1, h2, _⟩ := buyIterates_prices hit (wfat_bump _ hw)
    exact ⟨s', new, h, h1, h2⟩
  · obtain ⟨s', h⟩ := add_market_order_total hw id Side.SELL q
    obtain ⟨i1, hit, _⟩ := add_market_order_sell_some h
    obtain ⟨new, h1, h2, _⟩ := sellIterates_prices hit (wfat_bump _ hw)
    exact ⟨s', new, h, h1, h2⟩

/-- Witness of C13: after `B 5 10 1` and `B 6 11 1`, the sell `S 7 10 2` trades at 11, then
at 10. -/
theorem trades_best_price_first_witness :
    ∃ s, run LimitOrderBook.empty [Op.limit 5 Side.BUY 10 1, Op.limit 6 Side.BUY 11 1] = some s ∧
      (∃ s', s.add_limit_order 7 Side.SELL 10 2 = some s' ∧
        s'.trades = [⟨6, 7, 11, 1⟩, ⟨5, 7, 10, 1⟩]) ∧
      ∃ s' new, s.add_limit_order 7 Side.SELL 10 2 = some s' ∧ s'.trades = s.trades ++ new ∧
        new.Pairwise (fun a b => a.price ≥ b.price) :=
  ⟨_, run_getD (by decide), ⟨_, rfl, by decide⟩,
    (trades_best_price_first _ ⟨_, run_getD (by decide)⟩ 7 10 2).2.1⟩

/-- C15, the code at a failing input: after `S 1`, `S 2`, `S 3`, `S 4` at price 10 and a buy
that fills order 1, all with distinct ids, the entry of order 3 holds position 2, where
order 4 sits, and the entry of order 4 holds position 3, outside the level. -/
theorem index_entries_stale_after_fill :
    ∃ s, run LimitOrderBook.empty
        [Op.limit 1 Side.SELL 10 1, Op.limit 2 Side.SELL 10 1, Op.limit 3 Side.SELL 10 1,
         Op.limit 4 Side.SELL 10 1, Op.limit 5 Side.BUY 10 1] = some s ∧
      s.bids.levels = [] ∧
      s.order_index 3 = some (10, 2) ∧
      ((levels_at 10 s.asks.levels)[2]?).map (fun o => o.id) = some 4 ∧
      s.order_index 4 = some (10, 3) ∧
      (levels_at 10 s.asks.levels)[3]? = none :=
  ⟨_, run_getD (by decide), by decide, by decide, by decide, by decide, by decide⟩

/-- C18, counterexample: order 1 rests as a sell at 10; a buy with the same id 1 at 10 for 2
fills it and rests with 1; `cancel_order(1)` then removes the buy, and no order with id 1 is
left resting: the earlier order was filled by the second one. -/
theorem duplicate_id_cancel_counterexample :
    ∃ s s1 s2, run LimitOrderBook.empty [Op.limit 1 Side.SELL 10 1] = some s ∧
      s.asks.levels = [(10, [⟨1, Side.SELL, 10, 1, 0⟩])] ∧
      run s [Op.limit 1 Side.BUY 10 2] = some s1 ∧
      s1.bids.levels = [(10, [⟨1, Side.BUY, 10, 1, 1⟩])] ∧ s1.asks.levels = [] ∧
      run s1 [Op.cancel 1] = some s2 ∧
      (s1.cancel_order 1).map Prod.snd = some CancelResult.Cancelled ∧
      s2.bids.levels = [] ∧ s2.asks.levels = [] ∧
      ¬ (∃ o ∈ levels_orders s2.bids.levels ++ levels_orders s2.asks.levels, o.id = 1) :=
  ⟨_, _, _, run_getD (by decide), by decide, run_getD (by decide), by decide, by decide,
    run_getD (by decide), by decide, by decide, by decide, by decide⟩

/-- C18, amended: in a reachable state in which an order `o` with id `X` is resting, if a
second limit order with the same id `X` is submitted and rests, and `o` is still resting after
that submission (the second order did not fill it), then `cancel_order(X)` reports a
cancellation and removes the order that rested last: the own side of the second order is
again what it was before its submission, the opposite side is untouched, no order with the
arrival time of the second order is left, and `o` is still resting; afterwards `X` is no key
of `order_index` and a further `cancel_order(X)` reports that the id is not found. -/
theorem duplicate_id_cancel (s : LimitOrderBook) (hs : Reachable s) (X : Int) (o : Order)
    (ho : o ∈ levels_orders s.bids.levels ++ levels_orders s.asks.levels) (_hX : o.id = X)
    (side : Side) (price : ℚ) (q : Int) (s1 : LimitOrderBook)
    (h1 : s.add_limit_order X side price q = some s1)
    (hrest : ∃ n ∈ levels_orders (s1.own_side side).levels,
      n.id = X ∧ n.timestamp = s.ts_counter)
    (hstill : o ∈ levels_orders s1.bids.levels ++ levels_orders s1.asks.levels) :
    ∃ s2, s1.cancel_order X = some (s2, CancelResult.Cancelled) ∧
      (s2.own_side side).levels = (s.own_side side).levels ∧
      s2.opposite_side side = s1.opposite_side side ∧
      (¬ ∃ n ∈ levels_orders s2.bids.levels ++ levels_orders s2.asks.levels,
        n.timestamp = s.ts_counter) ∧
      o ∈ levels_orders s2.bids.levels ++ levels_orders s2.asks.levels ∧
      s2.order_index X = none ∧
      s2.cancel_order X = some (s2, CancelResult.NotFound) := by
  have hw := reachable_wf hs
  have hots : o.timestamp < s.ts_counter := by
    rcases List.mem_append.mp ho with h | h
    · exact sideWF_orders_ts hw.bids_wf o h
    · exact sideWF_orders_ts hw.asks_wf o h
  cases side with
  | BUY =>
    obtain ⟨l1, i1, hit, hex, _, has, _, hcase⟩ := add_limit_order_buy_some h1
    obtain ⟨hb, _, _, _, _, hpr, htm⟩ := buyIterates_frame hit
    have hw1 : WFat s.ts_counter l1 := buyIterates_wf hit (wfat_bump _ hw)
    dsimp only at hb hpr htm
    obtain ⟨n, hn, _, hnts⟩ := hrest
    rcases hcase with ⟨hq, hbid, hidx⟩ | ⟨_, hbid, _⟩
    · have e_own : s1.bids.levels
          = levels_modify true price (fun v => v ++ [i1]) s.bids.levels := by
        rw [hbid]
        show levels_modify l1.bids.is_bid i1.price _ l1.bids.levels = _
        rw [hb, hw.bids_flag, hpr]
      have e_flag : s1.bids.is_bid = true := by
        rw [hbid]
        show l1.bids.is_bid = true
        rw [hb]; exact hw.bids_flag
      have e_idx : s1.order_index X
          = some (price, (levels_at price s1.bids.levels).length - 1) := by
        rw [hidx]
        simp only [index_assign, if_true]
        rw [← hbid, hpr]
      have hL := levels_push_cancel true price i1 s.bids.levels (sideWF_nonempty hw.bids_wf)
      rw [← e_own] at hL
      have hlt : (levels_at price s1.bids.levels).length - 1
          < (levels_at price s1.bids.levels).length := by
        have := List.length_pos.mpr hL.1
        omega
      obtain ⟨s2, hc2, hopp, hlev, hidx2⟩ :=
        cancel_order_bids e_idx (levels_at_count hL.1) hlt
      rw [e_flag] at hlev
      have hown : s2.bids.levels = s.bids.levels := hlev.trans hL.2
      have hnone : s2.order_index X = none := by rw [hidx2]; simp [index_erase]
      refine ⟨s2, hc2, hown, hopp, ?_, ?_, hnone, cancel_order_absent hnone⟩
      · rintro ⟨m, hm, hmts⟩
        rw [hown, hopp, has] at hm
        rcases List.mem_append.mp hm with h | h
        · have := sideWF_orders_ts hw.bids_wf m h; omega
        · have := sideWF_orders_ts hw1.asks_wf m h; omega
      · rw [hown, hopp]
        rcases List.mem_append.mp hstill with h | h
        · rw [e_own] at h
          rcases mem_orders_push h with h | h
          · exact List.mem_append_left _ h
          · rw [h, htm] at hots; omega
        · exact List.mem_append_right _ h
    · exfalso
      have hn' : n ∈ levels_orders s.bids.levels := by
        have : (s1.own_side Side.BUY) = s.bids := hbid.trans hb
        rw [this] at hn; exact hn
      have := sideWF_orders_ts hw.bids_wf n hn'
      omega
  | SELL =>
    obtain ⟨l1, i1, hit, hex, _, has, _, hcase⟩ := add_limit_order_sell_some h1
    obtain ⟨hb, _, _, _, _, hpr, htm⟩ := sellIterates_frame hit
    have hw1 : WFat s.ts_counter l1 := sellIterates_wf hit (wfat_bump _ hw)
    dsimp only at hb hpr htm
    obtain ⟨n, hn, _, hnts⟩ := hrest
    rcases hcase with ⟨hq, hbid, hidx⟩ | ⟨_, hbid, _⟩
    · have e_own : s1.asks.levels
          = levels_modify false price (fun v => v ++ [i1]) s.asks.levels := by
        rw [hbid]
        show levels_modify l1.asks.is_bid i1.price _ l1.asks.levels = _
        rw [hb, hw.asks_flag, hpr]
      have e_flag : s1.asks.is_bid = false := by
        rw [hbid]
        show l1.asks.is_bid = false
        rw [hb]; exact hw.asks_flag
      have e_idx : s1.order_index X
          = some (price, (levels_at price s1.asks.levels).length - 1) := by
        rw [hidx]
        simp only [index_assign, if_true]
        rw [← hbid, hpr]
      have hL := levels_push_cancel false price i1 s.asks.levels (sideWF_nonempty hw.asks_wf)
      rw [← e_own] at hL
      have hlt : (levels_at price s1.asks.levels).length - 1
          < (levels_at price s1.asks.levels).length := by
        have := List.length_pos.mpr hL.1
        omega
      have hcount : levels_count price s1.bids.levels = false := by
        cases hc : levels_count price s1.bids.levels with
        | false => rfl
        | true =>
          exfalso
          obtain ⟨pb, hpb, epb⟩ := (levels_count_iff price _).mp hc
          rw [has] at hpb
          have := match_sell_exit_above hw1 hex hq pb hpb
          rw [epb, hpr] at this
          exact lt_irrefl _ this
      obtain ⟨s2, hc2, hopp, hlev, hidx2⟩ := cancel_order_asks e_idx hcount hlt
      rw [e_flag] at hlev
      have hown : s2.asks.levels = s.asks.levels := hlev.trans hL.2
      have hnone : s2.order_index X = none := by rw [hidx2]; simp [index_erase]
      refine ⟨s2, hc2, hown, hopp, ?_, ?_, hnone, cancel_order_absent hnone⟩
      · rintro ⟨m, hm, hmts⟩
        rw [hown, hopp, has] at hm
        rcases List.mem_append.mp hm with h | h
        · have := sideWF_orders_ts hw1.bids_wf m h; omega
        · have := sideWF_orders_ts hw.asks_wf m h; omega
      · rw [hown, hopp]
        rcases List.mem_append.mp hstill with h | h
        · exact List.mem_append_left _ h
        · rw [e_own] at h
          rcases mem_orders_push h with h | h
          · exact List.mem_append_right _ h
          · rw [h, htm] at hots; omega
    · exfalso
      have hn' : n ∈ levels_orders s.asks.levels := by
        have : (s1.own_side Side.SELL) = s.asks := hbid.trans hb
        rw [this] at hn; exact hn
      have := sideWF_orders_ts hw.asks_wf n hn'
      omega

/-- Witness of C18 amended: order 7 rests as a sell at 10 behind order 1; a second sell with
id 7 at 10 rests behind it; `cancel_order(7)` removes the second one. -/
theorem duplicate_id_cancel_witness :
    ∃ s s1, run LimitOrderBook.empty [Op.limit 1 Side.SELL 10 1, Op.limit 7 Side.SELL 10 2] = some s ∧
      run s [Op.limit 7 Side.SELL 10 3] = some s1 ∧
      s1.asks.levels = [(10, [⟨1, Side.SELL, 10, 1, 0⟩, ⟨7, Side.SELL, 10, 2, 1⟩,
                              ⟨7, Side.SELL, 10, 3, 2⟩])] ∧
      ∃ s2, s1.cancel_order 7 = some (s2, CancelResult.Cancelled) ∧
        (s2.own_side Side.SELL).levels = (s.own_side Side.SELL).levels ∧
        s2.opposite_side Side.SELL = s1.opposite_side Side.SELL ∧
        (¬ ∃ n ∈ levels_orders s2.bids.levels ++ levels_orders s2.asks.levels,
          n.timestamp = s.ts_counter) ∧
        (⟨7, Side.SELL, 10, 2, 1⟩ : Order)
          ∈ levels_orders s2.bids.levels ++ levels_orders s2.asks.levels ∧
        s2.order_index 7 = none ∧
        s2.cancel_order 7 = some (s2, CancelResult.NotFound) :=
  ⟨_, _, run_getD (by decide), run_getD (by decide), by decide,
    duplicate_id_cancel _ ⟨_, run_getD (by decide)⟩ 7 ⟨7, Side.SELL, 10, 2, 1⟩ (by decide) rfl
      Side.SELL 10 3 _ (run_limit (run_getD (by decide))) (by decide) (by decide)⟩

/-- C20: on every book whose opposite side has no empty level, in particular on every
well-formed book, and for every incoming order, `match_buy` and `match_sell` return, and the
resting orders of the opposite side, listed in priority order, are afterwards the list before
the call without a prefix, either unchanged, or with the first order left reduced to a
smaller positive quantity and every later order unchanged; an order is left reduced only when
the remaining quantity of the incoming order is zero. -/
theorem match_consumes_front_orders (lob : LimitOrderBook) (incoming : Order) :
    ((∀ pv ∈ lob.asks.levels, pv.2 ≠ []) →
      ∃ r, lob.match_buy incoming = some r ∧
        ((∃ k, levels_orders r.1.asks.levels = (levels_orders lob.asks.levels).drop k) ∨
         (∃ k o rest q', (levels_orders lob.asks.levels).drop k = o :: rest ∧
            levels_orders r.1.asks.levels = { o with quantity := q' } :: rest ∧
            0 < q' ∧ q' < o.quantity ∧ r.2.quantity = 0))) ∧
    ((∀ pv ∈ lob.bids.levels, pv.2 ≠ []) →
      ∃ r, lob.match_sell incoming = some r ∧
        ((∃ k, levels_orders r.1.bids.levels = (levels_orders lob.bids.levels).drop k) ∨
         (∃ k o rest q', (levels_orders lob.bids.levels).drop k = o :: rest ∧
            levels_orders r.1.bids.levels = { o with quantity := q' } :: rest ∧
            0 < q' ∧ q' < o.quantity ∧ r.2.quantity = 0))) := by
  constructor
  · intro hne
    obtain ⟨r, hr⟩ := match_buy_loop_fuel lob incoming hne
    exact ⟨r, hr, buyIterates_front_orders (match_buy_loop_iterates _ _ _ _ hr).1⟩
  · intro hne
    obtain ⟨r, hr⟩ := match_sell_loop_fuel lob incoming hne
    exact ⟨r, hr, sellIterates_front_orders (match_sell_loop_iterates _ _ _ _ hr).1⟩

/-- Witness of C20: asks of 2, 2 and 5 at prices 10, 10 and 11; a buy of 6 at 11 removes
orders 1 and 2 and leaves order 3 with 3. -/
theorem match_consumes_front_orders_witness :
    levels_orders ((run LimitOrderBook.empty [Op.limit 1 Side.SELL 10 2,
        Op.limit 2 Side.SELL 10 2, Op.limit 3 Side.SELL 11 5]).getD
          LimitOrderBook.empty).asks.levels
      = [⟨1, Side.SELL, 10, 2, 0⟩, ⟨2, Side.SELL, 10, 2, 1⟩, ⟨3, Side.SELL, 11, 5, 2⟩] ∧
    (LimitOrderBook.match_buy
        ((run LimitOrderBook.empty [Op.limit 1 Side.SELL 10 2, Op.limit 2 Side.SELL 10 2,
          Op.limit 3 Side.SELL 11 5]).getD LimitOrderBook.empty)
        ⟨4, Side.BUY, 11, 6, 3⟩).map (fun r => (levels_orders r.1.asks.levels, r.2.quantity))
      = some ([⟨3, Side.SELL, 11, 3, 2⟩], 0) ∧
    ∃ r, LimitOrderBook.match_buy
        ((run LimitOrderBook.empty [Op.limit 1 Side.SELL 10 2, Op.limit 2 Side.SELL 10 2,
          Op.limit 3 Side.SELL 11 5]).getD LimitOrderBook.empty)
        ⟨4, Side.BUY, 11, 6, 3⟩ = some r ∧
      ((∃ k, levels_orders r.1.asks.levels
          = (levels_orders ((run LimitOrderBook.empty [Op.limit 1 Side.SELL 10 2,
              Op.limit 2 Side.SELL 10 2, Op.limit 3 Side.SELL 11 5]).getD
                LimitOrderBook.empty).asks.levels).drop k) ∨
       (∃ k o rest q',
          (levels_orders ((run LimitOrderBook.empty [Op.limit 1 Side.SELL 10 2,
              Op.limit 2 Side.SELL 10 2, Op.limit 3 Side.SELL 11 5]).getD
                LimitOrderBook.empty).asks.levels).drop k = o :: rest ∧
          levels_orders r.1.asks.levels = { o with quantity := q' } :: rest ∧
          0 < q' ∧ q' < o.quantity ∧ r.2.quantity = 0)) :=
  ⟨by decide, by decide,
    (match_consumes_front_orders
      ((run LimitOrderBook.empty [Op.limit 1 Side.SELL 10 2, Op.limit 2 Side.SELL 10 2,
        Op.limit 3 Side.SELL 11 5]).getD LimitOrderBook.empty)
      ⟨4, Side.BUY, 11, 6, 3⟩).1 (by decide)⟩

end LOB
